import Mathlib

/-!
Verification development for the name-matching engine
(`code/matching.py`, `code/search_engine.py`, `code/app.py`,
`code/storage.py` dedupe logic, `code/metrics.py`).

Text is modelled as lists of Unicode code points (`List Nat`).  The
Unicode-dependent primitives (`str.lower`, NFKD decomposition, combining
classes) are embedded by explicit tables.  The tables are exact on ASCII and
on every concrete input appearing in this file (accented Latin letters, plus
the compatibility decompositions of U+2102 and U+2116); elsewhere they act as
the identity, a truncation of full Unicode.  Accordingly, theorems that
quantify over all inputs and depend on lowercasing or NFKD restrict the input
to the ASCII fragment, where the model agrees with CPython character by
character; non-ASCII behavior is asserted only at concrete, table-covered
inputs.
-/

/-- Code points of a Lean string, used to write readable concrete inputs. -/
def codesOf (s : String) : List Nat := s.data.map Char.toNat

/-- Whitespace per Python: the class matched by `\s`, `str.strip()` and
`str.split()` on `str` (ASCII whitespace, the C1 separators, NEL, NBSP and the
Unicode space characters). -/
def isPySpaceB (c : Nat) : Bool :=
  (9 ≤ c && c ≤ 13) || (28 ≤ c && c ≤ 31) || c == 32 || c == 133 || c == 160 ||
  c == 5760 || (8192 ≤ c && c ≤ 8202) || c == 8232 || c == 8233 || c == 8239 ||
  c == 8287 || c == 12288

/-- ASCII lowercase letter. -/
def isLowB (c : Nat) : Bool := 97 ≤ c && c ≤ 122

/-- ASCII letter (the class `[a-zA-Z]` of `NON_LETTER`). -/
def isLetterB (c : Nat) : Bool := (65 ≤ c && c ≤ 90) || (97 ≤ c && c ≤ 122)

/-- Lowercasing table for code points above U+00BF: the accented Latin
capitals appearing in this file's concrete inputs; identity on every other
code point in that range, so a truncation of full Unicode case mapping —
exact on ASCII, which is why universally quantified theorems about
normalization are stated over ASCII inputs. -/
def lowerHigh (c : Nat) : Nat :=
  match c with
  | 193 => 225 -- A acute
  | 201 => 233 -- E acute
  | 205 => 237 -- I acute
  | 209 => 241 -- N tilde
  | 211 => 243 -- O acute
  | 218 => 250 -- U acute
  | 220 => 252 -- U diaeresis
  | _ => c

/-- Python `str.lower` on one code point: exact on ASCII, and on the accented
capitals listed in `lowerHigh`; identity elsewhere. -/
def charLower (c : Nat) : Nat :=
  if 65 ≤ c ∧ c ≤ 90 then c + 32 else if c ≤ 191 then c else lowerHigh c

/-- NFKD decomposition for code points above U+00BF: the accented Latin
lowercase letters decompose into base letter plus combining mark, and two
representative compatibility decompositions that surface fresh cased letters
after lowercasing are included — U+2102 (double-struck capital C) to `C` and
U+2116 (numero sign) to `No`.  Every other code point is left undecomposed,
so the table is exact on ASCII and on the concrete inputs of this file but is
a truncation of full Unicode NFKD; theorems quantified over all inputs are
therefore stated on the ASCII fragment only. -/
def nfkdHigh (c : Nat) : List Nat :=
  match c with
  | 224 => [97, 768]  | 225 => [97, 769]  | 226 => [97, 770]  | 228 => [97, 776]
  | 231 => [99, 807]
  | 232 => [101, 768] | 233 => [101, 769] | 234 => [101, 770] | 235 => [101, 776]
  | 236 => [105, 768] | 237 => [105, 769] | 238 => [105, 770] | 239 => [105, 776]
  | 241 => [110, 771]
  | 242 => [111, 768] | 243 => [111, 769] | 244 => [111, 770] | 246 => [111, 776]
  | 249 => [117, 768] | 250 => [117, 769] | 251 => [117, 770] | 252 => [117, 776]
  | 8450 => [67]
  | 8470 => [78, 111]
  | _ => [c]

/-- NFKD decomposition of one code point: identity below U+00C0 (exact there),
`nfkdHigh` above. -/
def nfkd (c : Nat) : List Nat := if c ≤ 191 then [c] else nfkdHigh c

/-- Combining mark (the combining diacritical marks block). -/
def isCombiningB (c : Nat) : Bool := 768 ≤ c && c ≤ 879

/-- `strip_accents` from `code/matching.py`: NFKD-decompose, drop combining
marks. -/
def strip_accents (l : List Nat) : List Nat :=
  (l.flatMap nfkd).filter (fun c => !isCombiningB c)

/-- Python `str.strip`-style trimming: drop `p`-characters from both ends. -/
def dropEnds (p : Nat → Bool) (l : List Nat) : List Nat :=
  ((l.dropWhile p).reverse.dropWhile p).reverse

/-- `MULTISPACE.sub(" ", s)`: replace every maximal whitespace run by a single
space.  The flag records whether the previous character was whitespace. -/
def collapseAux : Bool → List Nat → List Nat
  | _, [] => []
  | prevSpace, c :: rest =>
    if isPySpaceB c then
      (if prevSpace then [] else [32]) ++ collapseAux true rest
    else c :: collapseAux false rest

/-- `NON_LETTER.sub(" ", s)`: replace every character that is neither an ASCII
letter nor whitespace by a space. -/
def nonLetterToSpace (l : List Nat) : List Nat :=
  l.map (fun c => if isLetterB c || isPySpaceB c then c else 32)

/-- The title tokens of `TITLE_PAT`, in the alternation order of the regex. -/
def titleToks : List (List Nat) :=
  [codesOf ("dr"), codesOf ("dra"), codesOf ("sr"), codesOf ("sra"),
   codesOf ("srta"), codesOf ("ing"), codesOf ("lic"), codesOf ("prof")]

/-- Whether `pre` is an initial segment of `l`. -/
def startsWithL : List Nat → List Nat → Bool
  | [], _ => true
  | _ :: _, [] => false
  | a :: pre, b :: l => a == b && startsWithL pre l

/-- Length of the leading whitespace run. -/
def wsRunLen (l : List Nat) : Nat := (l.takeWhile isPySpaceB).length

/-- Match `\.?\s+` at the front of `l` (greedy, with the regex backtracking on
the optional dot) and return the matched length. -/
def sepConsume (l : List Nat) : Option Nat :=
  match l with
  | 46 :: rest => if 0 < wsRunLen rest then some (1 + wsRunLen rest) else none
  | _ => if 0 < wsRunLen l then some (wsRunLen l) else none

/-- Try the title tokens in alternation order; on a token match require the
`\.?\s+` separator, otherwise backtrack to the next alternative. -/
def titleConsumeAux : List (List Nat) → List Nat → Option Nat
  | [], _ => none
  | t :: ts, l =>
    if startsWithL t l then
      match sepConsume (l.drop t.length) with
      | some k => some (t.length + k)
      | none => titleConsumeAux ts l
    else titleConsumeAux ts l

/-- Length matched by `TITLE_PAT` at the start of `l` (`none` when the pattern
does not match).  The input is already lowercased, so the `IGNORECASE` flag is
modelled by matching the lowercase tokens. -/
def titleConsume (l : List Nat) : Option Nat := titleConsumeAux titleToks l

/-- `TITLE_PAT.sub("", s)`: remove the matched leading title, if any. -/
def titleStrip (l : List Nat) : List Nat :=
  match titleConsume l with
  | some k => l.drop k
  | none => l

/-- `normalize_strict` from `code/matching.py` (also exported as `normalize`):
strip, lower, strip accents, drop a leading title, replace non-letters by
spaces, collapse whitespace and trim. -/
def normalize_strict (l : List Nat) : List Nat :=
  dropEnds isPySpaceB
    (collapseAux false
      (nonLetterToSpace
        (titleStrip
          (strip_accents ((dropEnds isPySpaceB l).map charLower)))))

/-- `char_ngrams` from `code/matching.py` (the module the engine imports): no
padding; empty input gives no grams; input of length at most `n` is a single
gram; otherwise all contiguous length-`n` slices. -/
def char_ngrams (s : List Nat) (n : Nat) : List (List Nat) :=
  if s = [] then []
  else if s.length ≤ n then [s]
  else (List.range (s.length - n + 1)).map (fun i => (s.drop i).take n)

/-- One cell-by-cell step of the LCS dynamic program: `prev` holds
`LCS(a-prefix, b-prefix-of-length-j), LCS(a-prefix, j+1), ...` and `cur` the
freshly computed cell for column `j`. -/
def lcsStepAux (x : Nat) : List Nat → List Nat → Nat → List Nat
  | [], _, _ => []
  | _ :: _, [], _ => []
  | y :: ys, p :: ps, cur =>
    let c := if x = y then p + 1 else max cur (ps.headD 0)
    c :: lcsStepAux x ys ps c

/-- Extend the LCS row by one character of `a`. -/
def lcsStep (x : Nat) (b : List Nat) (prev : List Nat) : List Nat :=
  0 :: lcsStepAux x b prev 0

/-- Length of a longest common subsequence of `a` and `b` (row dynamic
program). -/
def lcsLen (a b : List Nat) : Nat :=
  (a.foldl (fun prev x => lcsStep x b prev) (List.replicate (b.length + 1) 0)).getLastD 0


/-- Executable rational negation (`Rat.neg` is irreducible in this toolchain,
so the embedding uses `mkRat`-based arithmetic that the kernel can evaluate). -/
def ratNeg (a : ℚ) : ℚ := mkRat (-a.num) a.den

/-- Executable rational addition. -/
def ratAdd (a b : ℚ) : ℚ := mkRat (a.num * (b.den : ℤ) + b.num * (a.den : ℤ)) (a.den * b.den)

/-- Executable rational subtraction. -/
def ratSub (a b : ℚ) : ℚ := ratAdd a (ratNeg b)

/-- Executable rational multiplication. -/
def ratMul (a b : ℚ) : ℚ := mkRat (a.num * b.num) (a.den * b.den)

/-- Executable rational inverse (`0` maps to `0`). -/
def ratInv (a : ℚ) : ℚ :=
  if 0 ≤ a.num then mkRat (a.den : ℤ) a.num.toNat
  else mkRat (-(a.den : ℤ)) (-a.num).toNat

/-- Executable rational division. -/
def ratDiv (a b : ℚ) : ℚ := ratMul a (ratInv b)

/-- Executable minimum on `ℚ`. -/
def qMin (a b : ℚ) : ℚ := if a ≤ b then a else b

/-- Executable maximum on `ℚ`. -/
def qMax (a b : ℚ) : ℚ := if a ≤ b then b else a

/-- Modelled from the spec: `fuzz.ratio` of the rapidfuzz library (absent from
the source tree) as described in section 4.3 — normalized edit similarity
`200 * matched_chars / (len(A) + len(B))`, clamped to `[0, 100]`, with the
matched-character count given by a longest common subsequence. -/
def ratioQ (a b : List Nat) : ℚ :=
  if a.length + b.length = 0 then 100
  else qMin 100 (qMax 0 (mkRat (200 * (lcsLen a b : ℤ)) (a.length + b.length)))

/-- `str.split()` with no separator: split on whitespace runs, dropping empty
tokens.  The accumulator holds the current token reversed. -/
def splitWsAux : List Nat → List Nat → List (List Nat)
  | acc, [] => if acc = [] then [] else [acc.reverse]
  | acc, c :: rest =>
    if isPySpaceB c then
      (if acc = [] then [] else [acc.reverse]) ++ splitWsAux [] rest
    else splitWsAux (c :: acc) rest

/-- Whitespace tokenization (Python `str.split()`). -/
def splitWs (l : List Nat) : List (List Nat) := splitWsAux [] l

/-- Code-point lexicographic strict order on strings (Python `<`). -/
def lexLtB : List Nat → List Nat → Bool
  | _, [] => false
  | [], _ :: _ => true
  | a :: as, b :: bs => if a < b then true else if b < a then false else lexLtB as bs

/-- Non-strict string order derived from `lexLtB`. -/
def lexLeB (a b : List Nat) : Bool := !lexLtB b a

/-- Python `sorted` on a list of token strings. -/
def sortToks (ts : List (List Nat)) : List (List Nat) :=
  List.insertionSort (fun a b => lexLeB a b = true) ts

/-- Join tokens with single spaces. -/
def joinSpace (ts : List (List Nat)) : List Nat := List.intercalate [32] ts

/-- Modelled from the spec: `fuzz.token_set_ratio` of the rapidfuzz library
(absent from the source tree) as described in section 4.3 — tokenize both
strings on whitespace into sets, build the three comparison strings (sorted
intersection; sorted intersection followed by sorted tokens unique to `a`;
sorted intersection followed by sorted tokens unique to `b`) and return the
maximum pairwise edit ratio among them. -/
def tokenSetScore (a b : List Nat) : ℚ :=
  let ta := (splitWs a).dedup
  let tb := (splitWs b).dedup
  let inter := sortToks (ta.filter (fun t => decide (t ∈ tb)))
  let da := sortToks (ta.filter (fun t => decide (t ∉ tb)))
  let db := sortToks (tb.filter (fun t => decide (t ∉ ta)))
  let t0 := joinSpace inter
  let t1 := joinSpace (inter ++ da)
  let t2 := joinSpace (inter ++ db)
  qMax (ratioQ t0 t1) (qMax (ratioQ t0 t2) (ratioQ t1 t2))

/-- Python `round(q, d)`: round to `d` decimal digits, ties to even.  Written
on the integer numerator/denominator: with `a / b = q * 10 ^ d` and `f` its
floor, the fractional part compares to `1/2` as `2 * (a - f * b)` compares to
`b`. -/
def pyRound (q : ℚ) (d : Nat) : ℚ :=
  let a : ℤ := q.num * (10 : ℤ) ^ d
  let b : ℤ := (q.den : ℤ)
  let f : ℤ := a.fdiv b
  let r2 : ℤ := 2 * (a - f * b)
  let n : ℤ :=
    if r2 < b then f else if b < r2 then f + 1 else if f % 2 = 0 then f else f + 1
  mkRat n (10 ^ d)

/-- `NameRecord` from `code/storage.py`. -/
structure NameRecord where
  id : ℤ
  full_name : List Nat
  normalized_name : List Nat
deriving DecidableEq

/-- Insertion-ordered dictionary assignment (Python `d[k] = v`): update in
place when the key exists, append otherwise. -/
def dictSet [DecidableEq κ] (k : κ) (v : ν) : List (κ × ν) → List (κ × ν)
  | [] => [(k, v)]
  | (k2, v2) :: rest => if k2 = k then (k, v) :: rest else (k2, v2) :: dictSet k v rest

/-- Dictionary lookup (Python `d.get(k)`). -/
def dictGet [DecidableEq κ] (k : κ) : List (κ × ν) → Option ν
  | [] => none
  | (k2, v2) :: rest => if k2 = k then some v2 else dictGet k rest

/-- Dictionary key view (Python `d.keys()`), in insertion order. -/
def dictKeys (d : List (κ × ν)) : List κ := d.map Prod.fst

/-- Set insertion (Python `s.add(x)` / `s |= {x}`), keeping first-seen order as
the canonical representation of the unordered Python set. -/
def setAdd [DecidableEq α] (x : α) (l : List α) : List α :=
  if x ∈ l then l else l ++ [x]

/-- `SearchEngine` state from `code/search_engine.py` after `_build_index`. -/
structure SearchEngine where
  ngram_n : ℕ
  max_candidates : ℕ
  records_by_id : List (ℤ × NameRecord)
  inverted : List (List Nat × List ℤ)

/-- `self.inverted[ng].add(rec.id)` with `defaultdict(set)` semantics. -/
def invAdd (g : List Nat) (i : ℤ) (inv : List (List Nat × List ℤ)) :
    List (List Nat × List ℤ) :=
  match dictGet g inv with
  | some ids => dictSet g (setAdd i ids) inv
  | none => inv ++ [(g, [i])]

/-- `SearchEngine.__init__` plus `_build_index`: fill `records_by_id` and the
inverted n-gram index from the repository records. -/
def buildEngine (recs : List NameRecord) (n maxc : ℕ) : SearchEngine :=
  let st := recs.foldl
    (fun (st : List (ℤ × NameRecord) × List (List Nat × List ℤ)) rec =>
      (dictSet rec.id rec st.1,
       (char_ngrams rec.normalized_name n).foldl (fun inv g => invAdd g rec.id inv) st.2))
    ([], [])
  ⟨n, maxc, st.1, st.2⟩

/-- `self.inverted.get(g, set())`. -/
def invGet (e : SearchEngine) (g : List Nat) : List ℤ := (dictGet g e.inverted).getD []

/-- The union of the posting lists of the query's n-grams (the loop of
`candidate_ids` before the fallback and the cap). -/
def candidateUnion (e : SearchEngine) (q : List Nat) : List ℤ :=
  (char_ngrams q e.ngram_n).foldl
    (fun acc g => (invGet e g).foldl (fun acc2 i => setAdd i acc2) acc) []

/-- `SearchEngine.candidate_ids`: empty union falls back to all record ids;
a union above `max_candidates` is truncated after sorting ascending. -/
def candidate_ids (e : SearchEngine) (q : List Nat) : List ℤ :=
  let c := candidateUnion e q
  if c = [] then dictKeys e.records_by_id
  else if e.max_candidates < c.length then
    (List.insertionSort (fun a b : ℤ => a ≤ b) c).take e.max_candidates
  else c

/-- One scored candidate as built inside `search_explain` before the
underscore fields are popped: raw scores plus display-rounded copies. -/
structure ScoredFull where
  id : ℤ
  name : List Nat
  simRaw : ℚ
  tokRaw : ℚ
  editRaw : ℚ
  similarity : ℚ
  token_score : ℚ
  edit_score : ℚ
  w_token : ℚ
deriving DecidableEq

/-- A scored match after the `_similarity_raw`/`_token_raw`/`_edit_raw` keys
are popped. -/
structure ScoredShown where
  id : ℤ
  name : List Nat
  similarity : ℚ
  token_score : ℚ
  edit_score : ℚ
  w_token : ℚ
deriving DecidableEq

/-- Popping the three raw keys from a scored dict. -/
def stripRaw (m : ScoredFull) : ScoredShown :=
  ⟨m.id, m.name, m.similarity, m.token_score, m.edit_score, m.w_token⟩

/-- The scored dict built for one candidate record in `search_explain`. -/
def mkScored (q : List Nat) (w : ℚ) (rec : NameRecord) : ScoredFull :=
  let tok := tokenSetScore q rec.normalized_name
  let ed := ratioQ q rec.normalized_name
  let comb := ratAdd (ratMul w tok) (ratMul (ratSub 1 w) ed)
  ⟨rec.id, rec.full_name, comb, tok, ed, pyRound comb 2, pyRound tok 2, pyRound ed 2,
   pyRound w 3⟩

/-- The scoring loop of `search_explain`: look each candidate id up in
`records_by_id` (a missing id would raise `KeyError`, modelled as `none`),
score it, and keep it when the raw combined score reaches the threshold. -/
def scoreLoop (e : SearchEngine) (q : List Nat) (th w : ℚ) : List ℤ → Option (List ScoredFull)
  | [] => some []
  | rid :: rest =>
    match dictGet rid e.records_by_id with
    | none => none
    | some rec =>
      match scoreLoop e q th w rest with
      | none => none
      | some l => some (if th ≤ (mkScored q w rec).simRaw then mkScored q w rec :: l else l)

/-- The Python sort key `(-sim_raw, -token_raw, -edit_raw, id)` as a
lexicographic product. -/
def sortKey (m : ScoredFull) : ℚ ×ₗ (ℚ ×ₗ (ℚ ×ₗ ℤ)) :=
  toLex (-m.simRaw, toLex (-m.tokRaw, toLex (-m.editRaw, m.id)))

/-- Comparison used by the `scored.sort` call. -/
def scoredLE (a b : ScoredFull) : Prop := sortKey a ≤ sortKey b

instance : DecidableRel scoredLE := fun a b =>
  inferInstanceAs (Decidable (sortKey a ≤ sortKey b))

instance : IsTotal ScoredFull scoredLE := ⟨fun a b => le_total (sortKey a) (sortKey b)⟩

instance : IsTrans ScoredFull scoredLE := ⟨fun _ _ _ hab hbc => le_trans hab hbc⟩

/-- `SearchEngine.search_explain`: candidate generation, threshold filter,
deterministic sort, pop of the raw keys, truncation to `limit`; also returns
the pre-filter candidate count. -/
def search_explain (e : SearchEngine) (q : List Nat) (th : ℚ) (limit : ℕ) (w : ℚ) :
    Option (List ScoredShown × ℕ) :=
  let cand := candidate_ids e q
  match scoreLoop e q th w cand with
  | none => none
  | some scored =>
    let sorted := List.insertionSort scoredLE scored
    some ((sorted.map stripRaw).take limit, cand.length)

/-- Removal of every entry with the given key (an `OrderedDict` holds at most
one, so this is ordinary deletion on reachable states). -/
def dictEraseAll [DecidableEq κ] (k : κ) : List (κ × ν) → List (κ × ν)
  | [] => []
  | (k2, v2) :: rest =>
    if k2 = k then dictEraseAll k rest else (k2, v2) :: dictEraseAll k rest

/-- `LRUCache.get` from `code/app.py`: on a hit, `move_to_end` promotes the
entry to most-recently-used (list order is least- to most-recently-used);
returns the value, or `none` on a miss, together with the updated store. -/
def lruGet [DecidableEq κ] (k : κ) (c : List (κ × ν)) : Option ν × List (κ × ν) :=
  match dictGet k c with
  | none => (none, c)
  | some v => (some v, dictEraseAll k c ++ [(k, v)])

/-- `LRUCache.set`: assign, `move_to_end`, then `popitem(last=False)` when the
size exceeds the capacity `C`. -/
def lruSet [DecidableEq κ] (C : ℕ) (k : κ) (v : ν) (c : List (κ × ν)) : List (κ × ν) :=
  let c1 := dictSet k v c
  let c2 := dictEraseAll k c1 ++ [(k, v)]
  if C < c2.length then c2.drop 1 else c2

/-- Classify one closed tie group (`compute_tie_break_stats` body): resolved by
token score if the token scores differ, else by edit score if those differ,
else by id. -/
def classifyRun (run : List ScoredShown) : ℕ × ℕ × ℕ × ℕ :=
  if run.length ≤ 1 then (0, 0, 0, 0)
  else if 1 < ((run.map (fun m => m.token_score)).dedup).length then (1, 1, 0, 0)
  else if 1 < ((run.map (fun m => m.edit_score)).dedup).length then (1, 0, 1, 0)
  else (1, 0, 0, 1)

/-- Componentwise sum of tie-break stat quadruples. -/
def addQuad (a b : ℕ × ℕ × ℕ × ℕ) : ℕ × ℕ × ℕ × ℕ :=
  (a.1 + b.1, a.2.1 + b.2.1, a.2.2.1 + b.2.2.1, a.2.2.2 + b.2.2.2)

/-- The scanning loop of `compute_tie_break_stats`: `first` is the opening
element of the current run, `acc` the run collected so far (including
`first`), and the third argument the unscanned tail. -/
def tieStatsAux (first : ScoredShown) (acc : List ScoredShown) :
    List ScoredShown → ℕ × ℕ × ℕ × ℕ
  | [] => classifyRun acc
  | m :: rest =>
    if m.similarity = first.similarity then tieStatsAux first (acc ++ [m]) rest
    else addQuad (classifyRun acc) (tieStatsAux m [m] rest)

/-- `compute_tie_break_stats` from `code/app.py`: group consecutive results
with equal (rounded) similarity and classify each group of size above one. -/
def compute_tie_break_stats : List ScoredShown → ℕ × ℕ × ℕ × ℕ
  | [] => (0, 0, 0, 0)
  | m :: rest => tieStatsAux m [m] rest

/-- `RollingStats` from `code/metrics.py` (two bounded deques). -/
structure RollingStats where
  maxlen : ℕ
  lat_ms : List ℚ
  candidates : List ℕ
deriving DecidableEq

/-- `deque(maxlen=...)` append: drop the oldest element when full. -/
def dequeAdd (maxlen : ℕ) (x : α) (l : List α) : List α :=
  let l2 := l ++ [x]
  if maxlen < l2.length then l2.drop 1 else l2

/-- `RollingStats.add`. -/
def rollingAdd (lat : ℚ) (cand : ℕ) (r : RollingStats) : RollingStats :=
  ⟨r.maxlen, dequeAdd r.maxlen lat r.lat_ms, dequeAdd r.maxlen cand r.candidates⟩

/-- Sum of a list of rationals (Python `sum`, left fold from `0`). -/
def ratSum (l : List ℚ) : ℚ := l.foldl ratAdd 0

/-- `RollingStats.mean`. -/
def meanQ (l : List ℚ) : ℚ :=
  if l = [] then 0 else ratDiv (ratSum l) (((l.length : ℤ) : ℚ))

/-- `RollingStats.p95`: the element of the ascending-sorted window at index
`int(0.95 * (len - 1))`, or `0` for an empty window. -/
def p95Q (l : List ℚ) : ℚ :=
  if l = [] then 0
  else (List.insertionSort (fun a b : ℚ => a ≤ b) l).getD (19 * (l.length - 1) / 20) 0

/-- `Metrics` from `code/metrics.py`. -/
structure Metrics where
  started_at : ℚ
  total_requests : ℕ
  total_cache_hits : ℕ
  top_queries : List (List Nat × ℕ)
  rolling : RollingStats
  tie_groups_total : ℕ
  tie_resolved_by_token : ℕ
  tie_resolved_by_edit : ℕ
  tie_resolved_by_id : ℕ
deriving DecidableEq

/-- `Metrics.inc_request`. -/
def inc_request (q : List Nat) (m : Metrics) : Metrics :=
  { m with
    total_requests := m.total_requests + 1,
    top_queries := dictSet q ((dictGet q m.top_queries).getD 0 + 1) m.top_queries }

/-- `Metrics.inc_cache_hit`. -/
def inc_cache_hit (m : Metrics) : Metrics :=
  { m with total_cache_hits := m.total_cache_hits + 1 }

/-- `Metrics.add_search_stats`. -/
def add_search_stats (lat : ℚ) (cand : ℕ) (m : Metrics) : Metrics :=
  { m with rolling := rollingAdd lat cand m.rolling }

/-- `Metrics.add_tie_stats`. -/
def add_tie_stats (g bt be bi : ℕ) (m : Metrics) : Metrics :=
  { m with
    tie_groups_total := m.tie_groups_total + g,
    tie_resolved_by_token := m.tie_resolved_by_token + bt,
    tie_resolved_by_edit := m.tie_resolved_by_edit + be,
    tie_resolved_by_id := m.tie_resolved_by_id + bi }

/-- Comparison used by `sorted(..., key=lambda x: x[1], reverse=True)` on the
query-count pairs: count descending; Python's sort is stable, which the
insertion sort reproduces. -/
def countGE (a b : List Nat × ℕ) : Prop := b.2 ≤ a.2

instance : DecidableRel countGE := fun a b => inferInstanceAs (Decidable (b.2 ≤ a.2))

instance : IsTotal (List Nat × ℕ) countGE := ⟨fun a b => le_total b.2 a.2⟩

instance : IsTrans (List Nat × ℕ) countGE := ⟨fun _ _ _ hab hbc => le_trans hbc hab⟩

/-- The structured report returned by `Metrics.snapshot`. -/
structure MSnapshot where
  uptime_seconds : ℚ
  total_requests : ℕ
  total_cache_hits : ℕ
  cache_hit_rate : ℚ
  latency_ms_avg : ℚ
  latency_ms_p95 : ℚ
  candidates_avg : ℚ
  candidates_p95 : ℚ
  tie_groups_total : ℕ
  resolved_by_token_pct : ℚ
  resolved_by_edit_pct : ℚ
  resolved_by_id_pct : ℚ
  top_queries : List (List Nat × ℕ)
deriving DecidableEq

/-- `Metrics.snapshot` (`now` stands for `time.time()`): hit rate, rolling
means and 95th percentiles, tie percentages — each display-rounded — and the
top-`topk` queries by count. -/
def snapshot (m : Metrics) (now : ℚ) (topk : ℕ) : MSnapshot :=
  let hitRate : ℚ :=
    if m.total_requests = 0 then 0
    else ratDiv ((m.total_cache_hits : ℤ) : ℚ) ((m.total_requests : ℤ) : ℚ)
  let top := (List.insertionSort countGE m.top_queries).take topk
  let pctTok : ℚ :=
    if m.tie_groups_total = 0 then 0
    else ratDiv ((m.tie_resolved_by_token : ℤ) : ℚ) ((m.tie_groups_total : ℤ) : ℚ)
  let pctEdit : ℚ :=
    if m.tie_groups_total = 0 then 0
    else ratDiv ((m.tie_resolved_by_edit : ℤ) : ℚ) ((m.tie_groups_total : ℤ) : ℚ)
  let pctId : ℚ :=
    if m.tie_groups_total = 0 then 0
    else ratDiv ((m.tie_resolved_by_id : ℤ) : ℚ) ((m.tie_groups_total : ℤ) : ℚ)
  { uptime_seconds := pyRound (now - m.started_at) 2
    total_requests := m.total_requests
    total_cache_hits := m.total_cache_hits
    cache_hit_rate := pyRound hitRate 4
    latency_ms_avg := pyRound (meanQ m.rolling.lat_ms) 2
    latency_ms_p95 := pyRound (p95Q m.rolling.lat_ms) 2
    candidates_avg := pyRound (meanQ (m.rolling.candidates.map (fun n => ((n : ℤ) : ℚ)))) 2
    candidates_p95 := pyRound (p95Q (m.rolling.candidates.map (fun n => ((n : ℤ) : ℚ)))) 2
    tie_groups_total := m.tie_groups_total
    resolved_by_token_pct := pyRound pctTok 4
    resolved_by_edit_pct := pyRound pctEdit 4
    resolved_by_id_pct := pyRound pctId 4
    top_queries := top }

/-- Pair every element with its position, starting at `k`. -/
def zipIdxFrom (k : ℕ) : List α → List (α × ℕ)
  | [] => []
  | a :: l => (a, k) :: zipIdxFrom (k + 1) l

/-- Order on position-tagged query-count pairs: count descending, ties by
original position ascending (first-seen insertion order). -/
def topRel (p q : (List Nat × ℕ) × ℕ) : Prop :=
  q.1.2 < p.1.2 ∨ (p.1.2 = q.1.2 ∧ p.2 ≤ q.2)

instance : DecidableRel topRel := fun p q =>
  inferInstanceAs (Decidable (q.1.2 < p.1.2 ∨ (p.1.2 = q.1.2 ∧ p.2 ≤ q.2)))

/-- Modelled from the spec: the top-query list "sorted by count descending
with ties broken by first-seen insertion order" — sort the position-tagged
entries by `topRel` and forget the positions. -/
def specTopSort (items : List (List Nat × ℕ)) : List (List Nat × ℕ) :=
  (List.insertionSort topRel (zipIdxFrom 0 items)).map Prod.fst

/-- `groups.setdefault(k, []).append((id, name))` from `build_repository`. -/
def groupAdd (k : List Nat) (p : ℤ × List Nat)
    (gs : List (List Nat × List (ℤ × List Nat))) :
    List (List Nat × List (ℤ × List Nat)) :=
  match dictGet k gs with
  | some ms => dictSet k (ms ++ [p]) gs
  | none => gs ++ [(k, [p])]

/-- The dedupe grouping loop of `build_repository` (mode
`standardized+dedupe`): group the source rows by their strict normalized key,
dropping rows whose key is empty. -/
def buildGroups (rows : List (ℤ × List Nat)) :
    List (List Nat × List (ℤ × List Nat)) :=
  rows.foldl
    (fun gs p =>
      let k := normalize_strict p.2
      if k = [] then gs else groupAdd k p gs) []

/-- Comparison used by `sorted(members, key=lambda x: x[0])`. -/
def idLE (a b : ℤ × List Nat) : Prop := a.1 ≤ b.1

instance : DecidableRel idLE := fun a b => inferInstanceAs (Decidable (a.1 ≤ b.1))

instance : IsTotal (ℤ × List Nat) idLE := ⟨fun a b => le_total a.1 b.1⟩

instance : IsTrans (ℤ × List Nat) idLE := ⟨fun _ _ _ hab hbc => le_trans hab hbc⟩

/-- The `NameRecord` produced for one dedupe group: representative id and
display name from the id-sorted members, normalized name from the group key. -/
def groupRecord (g : List Nat × List (ℤ × List Nat)) : NameRecord :=
  let ms := List.insertionSort idLE g.2
  ⟨(ms.headD (0, [])).1, (ms.headD (0, [])).2, g.1⟩

/-- The audited member-id list of one dedupe group (`[m[0] for m in
members_sorted]`). -/
def groupIdsOf (g : List Nat × List (ℤ × List Nat)) : List ℤ :=
  (List.insertionSort idLE g.2).map Prod.fst

/-- The record list built by `build_repository` in `standardized+dedupe`
mode. -/
def dedupeRecords (rows : List (ℤ × List Nat)) : List NameRecord :=
  (buildGroups rows).map groupRecord

/-- The `_GROUP_IDS_BY_REP_ID` audit map filled alongside `dedupeRecords`. -/
def groupIdsMap (rows : List (ℤ × List Nat)) : List (ℤ × List ℤ) :=
  (buildGroups rows).foldl (fun d g => dictSet (groupRecord g).id (groupIdsOf g) d) []

/-- Cache key of `run_match`: `(q_norm, threshold, limit, w_token, explain,
include_by_id)`. -/
def CacheKey : Type := List Nat × ℚ × ℕ × ℚ × Bool × Bool

instance : DecidableEq CacheKey :=
  inferInstanceAs (DecidableEq (List Nat × ℚ × ℕ × ℚ × Bool × Bool))

/-- One entry of the `results` list in the response payload; the three
explain fields are present only when `explain` was requested. -/
structure ResultItem where
  id : ℤ
  name : List Nat
  similarity : ℚ
  token_score : Option ℚ
  edit_score : Option ℚ
  w_token : Option ℚ
deriving DecidableEq

/-- One entry of the `results_by_id` map (no `id` field). -/
structure ByIdItem where
  name : List Nat
  similarity : ℚ
  token_score : Option ℚ
  edit_score : Option ℚ
  w_token : Option ℚ
deriving DecidableEq

/-- The response payload built by `run_match`. -/
structure Payload where
  results : List ResultItem
  results_by_id : Option (List (ℤ × ByIdItem))
deriving DecidableEq

/-- The `results` list of `run_match` (with or without explain fields). -/
def mkResults (explain : Bool) (hits : List ScoredShown) : List ResultItem :=
  if explain then
    hits.map (fun m =>
      ⟨m.id, m.name, m.similarity, some m.token_score, some m.edit_score, some m.w_token⟩)
  else hits.map (fun m => ⟨m.id, m.name, m.similarity, none, none, none⟩)

/-- The `results_by_id` dict comprehension of `run_match`. -/
def mkById (explain : Bool) (rs : List ResultItem) : List (ℤ × ByIdItem) :=
  rs.foldl
    (fun d r =>
      dictSet r.id
        (if explain then ⟨r.name, r.similarity, r.token_score, r.edit_score, r.w_token⟩
         else ⟨r.name, r.similarity, none, none, none⟩) d) []

/-- The mutable state shared by requests: the module-level LRU cache and
metrics object of `code/app.py`. -/
structure AppState where
  cache : List (CacheKey × Payload)
  metrics : Metrics

/-- `run_match` from `code/app.py`; `C` is the cache capacity and `latency`
stands for the measured wall-clock latency of the engine call.  Returns the
payload and the updated shared state (`none` only if the engine lookup of a
candidate id could fail, which `search_explain` totality rules out). -/
def run_match (e : SearchEngine) (C : ℕ) (nameQ : List Nat) (th : ℚ) (limit : ℕ)
    (w : ℚ) (explain byId : Bool) (latency : ℚ) (st : AppState) :
    Option (Payload × AppState) :=
  let qn := normalize_strict nameQ
  let m1 := inc_request qn st.metrics
  let key : CacheKey := (qn, th, limit, w, explain, byId)
  match lruGet key st.cache with
  | (some p, cache2) => some (p, ⟨cache2, inc_cache_hit m1⟩)
  | (none, cache2) =>
    match search_explain e qn th limit w with
    | none => none
    | some (hits, cnt) =>
      let m2 := add_search_stats latency cnt m1
      let q := compute_tie_break_stats hits
      let m3 := add_tie_stats q.1 q.2.1 q.2.2.1 q.2.2.2 m2
      let rs := mkResults explain hits
      let payload : Payload := ⟨rs, if byId then some (mkById explain rs) else none⟩
      some (payload, ⟨lruSet C key payload cache2, m3⟩)

/-- Modelled from the spec: the index grams claimed in section 4.2 — the
normalized name "padded with one leading and one trailing space", sliced into
all contiguous substrings of length `n`, the whole padded string being a
single gram when it is shorter than `n`. -/
def paddedNgramsSpec (s : List Nat) (n : ℕ) : List (List Nat) :=
  let t := 32 :: (s ++ [32])
  if t.length < n then [t]
  else (List.range (t.length - n + 1)).map (fun i => (t.drop i).take n)

section DictLemmas

variable {κ ν : Type} [DecidableEq κ]

theorem dictGet_append_right (k : κ) (d e : List (κ × ν)) (h : dictGet k d = none) :
    dictGet k (d ++ e) = dictGet k e := by
  induction d with
  | nil => rfl
  | cons p rest ih =>
    obtain ⟨k2, v2⟩ := p
    by_cases hk : k2 = k
    · simp [dictGet, if_pos hk] at h
    · simp only [dictGet, if_neg hk] at h
      simp only [dictGet, List.cons_append, if_neg hk]
      exact ih h

theorem dictGet_append_left (k : κ) (d e : List (κ × ν)) (v : ν)
    (h : dictGet k d = some v) : dictGet k (d ++ e) = some v := by
  induction d with
  | nil => simp [dictGet] at h
  | cons p rest ih =>
    obtain ⟨k2, v2⟩ := p
    by_cases hk : k2 = k
    · simp only [dictGet, if_pos hk] at h ⊢
      exact h
    · simp only [dictGet, if_neg hk] at h ⊢
      exact ih h

theorem dictGet_eraseAll_self (k : κ) (d : List (κ × ν)) :
    dictGet k (dictEraseAll k d) = none := by
  induction d with
  | nil => rfl
  | cons p rest ih =>
    obtain ⟨k2, v2⟩ := p
    by_cases hk : k2 = k
    · simpa [dictEraseAll, if_pos hk] using ih
    · simpa [dictEraseAll, if_neg hk, dictGet] using ih

theorem dictGet_eraseAll_ne (k j : κ) (d : List (κ × ν)) (hjk : j ≠ k) :
    dictGet j (dictEraseAll k d) = dictGet j d := by
  induction d with
  | nil => rfl
  | cons p rest ih =>
    obtain ⟨k2, v2⟩ := p
    by_cases hk : k2 = k
    · have hkj : ¬k2 = j := fun h => hjk (h ▸ hk.symm ▸ rfl)
      rw [dictEraseAll, if_pos hk, dictGet, if_neg hkj]
      exact ih
    · rw [dictEraseAll, if_neg hk]
      by_cases hj : k2 = j
      · simp [dictGet, if_pos hj]
      · simp only [dictGet, if_neg hj]
        exact ih

theorem eraseAll_dictSet_self (k : κ) (v : ν) (d : List (κ × ν)) :
    dictEraseAll k (dictSet k v d) = dictEraseAll k d := by
  induction d with
  | nil => simp [dictSet, dictEraseAll]
  | cons p rest ih =>
    obtain ⟨k2, v2⟩ := p
    by_cases hk : k2 = k
    · simp [dictSet, if_pos hk, dictEraseAll]
    · simp [dictSet, if_neg hk, dictEraseAll, ih]

theorem dictSet_fresh (k : κ) (v : ν) (d : List (κ × ν)) (h : dictGet k d = none) :
    dictSet k v d = d ++ [(k, v)] := by
  induction d with
  | nil => rfl
  | cons p rest ih =>
    obtain ⟨k2, v2⟩ := p
    by_cases hk : k2 = k
    · simp [dictGet, if_pos hk] at h
    · simp only [dictGet, if_neg hk] at h
      simp [dictSet, if_neg hk, ih h]

theorem eraseAll_of_fresh (k : κ) (d : List (κ × ν)) (h : dictGet k d = none) :
    dictEraseAll k d = d := by
  induction d with
  | nil => rfl
  | cons p rest ih =>
    obtain ⟨k2, v2⟩ := p
    by_cases hk : k2 = k
    · simp [dictGet, if_pos hk] at h
    · simp only [dictGet, if_neg hk] at h
      simp [dictEraseAll, if_neg hk, ih h]

end DictLemmas

section LruLemmas

variable {κ ν : Type} [DecidableEq κ]

theorem dictEraseAll_append (k : κ) (d e : List (κ × ν)) :
    dictEraseAll k (d ++ e) = dictEraseAll k d ++ dictEraseAll k e := by
  induction d with
  | nil => rfl
  | cons p rest ih =>
    obtain ⟨k2, v2⟩ := p
    by_cases hk : k2 = k
    · simp [dictEraseAll, if_pos hk, ih]
    · simp [dictEraseAll, if_neg hk, ih]

theorem lruSet_fresh (C : ℕ) (k : κ) (v : ν) (st : List (κ × ν))
    (h : dictGet k st = none) :
    lruSet C k v st =
      if C < st.length + 1 then (st ++ [(k, v)]).drop 1 else st ++ [(k, v)] := by
  have h1 : dictSet k v st = st ++ [(k, v)] := dictSet_fresh k v st h
  have h2 : dictEraseAll k (st ++ [(k, v)]) = st := by
    rw [dictEraseAll_append, eraseAll_of_fresh k st h]
    simp [dictEraseAll]
  simp only [lruSet, h1, h2]
  simp

theorem lruFold_eq (C : ℕ) (vf : κ → ν) :
    ∀ (ks : List κ) (st : List (κ × ν)), ks.Nodup →
      (∀ j ∈ ks, dictGet j st = none) →
      st.length + ks.length = C + 1 → ks ≠ [] →
      List.foldl (fun c j => lruSet C j (vf j) c) st ks =
        (st ++ ks.map (fun j => (j, vf j))).drop 1 := by
  intro ks
  induction ks with
  | nil => intro st _ _ _ hne; exact absurd rfl hne
  | cons k rest ih =>
    intro st hnd hfresh hlen _
    have hkfresh : dictGet k st = none := hfresh k (by simp)
    cases rest with
    | nil =>
      have hset : lruSet C k (vf k) st = (st ++ [(k, vf k)]).drop 1 := by
        rw [lruSet_fresh C k (vf k) st hkfresh, if_pos (by simp at hlen; omega)]
      simpa using hset
    | cons r rs =>
      have hlen2 : st.length + 1 ≤ C := by simp at hlen; omega
      have hstep : lruSet C k (vf k) st = st ++ [(k, vf k)] := by
        rw [lruSet_fresh C k (vf k) st hkfresh, if_neg (by omega)]
      have hnd2 : (r :: rs).Nodup := hnd.of_cons
      have hfresh2 : ∀ j ∈ r :: rs, dictGet j (st ++ [(k, vf k)]) = none := by
        intro j hj
        have hjk : j ≠ k := by
          rintro rfl
          exact (List.nodup_cons.mp hnd).1 hj
        have hjfresh : dictGet j st = none := hfresh j (List.mem_cons_of_mem _ hj)
        rw [dictGet_append_right j st _ hjfresh]
        have hkj : ¬(k = j) := fun h => hjk h.symm
        simp [dictGet, hkj]
      have hlen3 : (st ++ [(k, vf k)]).length + (r :: rs).length = C + 1 := by
        simp at hlen ⊢
        omega
      have hrec := ih (st ++ [(k, vf k)]) hnd2 hfresh2 hlen3 (by simp)
      simp only [List.foldl_cons, hstep, hrec, List.map_cons, List.append_assoc,
        List.singleton_append]

end LruLemmas

/-- C7: the query cache is LRU with fixed capacity `C` (entries ordered least-
to most-recently-used): `get` on a present key returns its value and promotes
the entry to most-recently-used, preserving every lookup; `get` on a missing
key returns nothing and leaves the store unchanged; `set` inserts or
overwrites, marks the key most-recently-used, and evicts exactly the single
least-recently-used entry when the insertion makes the size exceed `C`; in
particular inserting `C + 1` distinct keys into an empty cache of capacity `C`
evicts exactly the least-recently-accessed (first-inserted) key. -/
theorem C7_lru_cache {κ ν : Type} [DecidableEq κ] (C : ℕ) (k : κ) (v : ν)
    (st : List (κ × ν)) (vf : κ → ν) (ks : List κ) :
    (dictGet k st = none → lruGet k st = (none, st)) ∧
    (∀ w, dictGet k st = some w →
      (lruGet k st).1 = some w ∧
      (lruGet k st).2 = dictEraseAll k st ++ [(k, w)] ∧
      (∀ j, dictGet j (lruGet k st).2 = dictGet j st)) ∧
    (dictGet k st = none → st.length + 1 ≤ C →
      lruSet C k v st = st ++ [(k, v)]) ∧
    (dictGet k st = none → st.length = C →
      lruSet C k v st = (st ++ [(k, v)]).drop 1) ∧
    (lruSet C k v st =
      (if C < (dictEraseAll k st ++ [(k, v)]).length
       then (dictEraseAll k st ++ [(k, v)]).drop 1
       else dictEraseAll k st ++ [(k, v)])) ∧
    (ks.Nodup → ks.length = C + 1 →
      List.foldl (fun c j => lruSet C j (vf j) c) ([] : List (κ × ν)) ks =
        (ks.drop 1).map (fun j => (j, vf j))) := by
  refine ⟨?_, ?_, ?_, ?_, ?_, ?_⟩
  · intro h
    simp [lruGet, h]
  · intro w h
    refine ⟨by simp [lruGet, h], by simp [lruGet, h], ?_⟩
    intro j
    simp only [lruGet, h]
    by_cases hjk : j = k
    · subst hjk
      rw [dictGet_append_right j _ _ (dictGet_eraseAll_self j st)]
      simp [dictGet, h]
    · match hu : dictGet j st with
      | some u =>
        have : dictGet j (dictEraseAll k st) = some u := by
          rw [dictGet_eraseAll_ne k j st hjk]; exact hu
        rw [dictGet_append_left j _ _ u this]
      | none =>
        have : dictGet j (dictEraseAll k st) = none := by
          rw [dictGet_eraseAll_ne k j st hjk]; exact hu
        rw [dictGet_append_right j _ _ this]
        have hkj : ¬(k = j) := fun h2 => hjk h2.symm
        simp [dictGet, hkj]
  · intro h hlen
    rw [lruSet_fresh C k v st h, if_neg (by omega)]
  · intro h hlen
    rw [lruSet_fresh C k v st h, if_pos (by omega)]
  · simp only [lruSet, eraseAll_dictSet_self]
  · intro hnd hlen
    have := lruFold_eq C vf ks [] hnd (by intro j _; rfl) (by simpa using hlen)
      (by rintro rfl; simp at hlen)
    rw [this]
    simp [List.map_drop]

/-- Witness for C7 at a concrete cache: a hit on key 1 in a two-entry cache,
and three distinct insertions into an empty cache of capacity 2. -/
theorem C7_lru_cache_witness :
    (lruGet 1 ([(1, 5), (2, 6)] : List (ℕ × ℕ))).1 = some 5 ∧
    List.foldl (fun c j => lruSet 2 j (j * 10) c) ([] : List (ℕ × ℕ)) [1, 2, 3] =
      [(2, 20), (3, 30)] := by
  constructor
  · exact ((C7_lru_cache 2 1 9 [(1, 5), (2, 6)] (fun j => j * 10) [1, 2, 3]).2.1 5
      (by decide)).1
  · rw [(C7_lru_cache 2 1 9 [(1, 5), (2, 6)] (fun j => j * 10) [1, 2, 3]).2.2.2.2.2
      (by decide) (by decide)]
    rfl

section BuildLemmas

variable {κ ν : Type} [DecidableEq κ]

theorem dictGet_dictSet_self (k : κ) (v : ν) (d : List (κ × ν)) :
    dictGet k (dictSet k v d) = some v := by
  induction d with
  | nil => simp [dictSet, dictGet]
  | cons p rest ih =>
    obtain ⟨k2, v2⟩ := p
    by_cases hk : k2 = k
    · simp [dictSet, if_pos hk, dictGet]
    · simp [dictSet, if_neg hk, dictGet, ih]

theorem dictGet_dictSet_ne (k j : κ) (v : ν) (d : List (κ × ν)) (hjk : j ≠ k) :
    dictGet j (dictSet k v d) = dictGet j d := by
  have hkj : ¬(k = j) := fun h => hjk h.symm
  induction d with
  | nil => simp [dictSet, dictGet, hkj]
  | cons p rest ih =>
    obtain ⟨k2, v2⟩ := p
    by_cases hk : k2 = k
    · subst hk
      simp [dictSet, dictGet, hkj]
    · by_cases hj : k2 = j
      · subst hj
        simp [dictSet, if_neg hk, dictGet]
      · simp [dictSet, if_neg hk, dictGet, hj, ih]

theorem dictGet_eq_none_iff (k : κ) (d : List (κ × ν)) :
    dictGet k d = none ↔ k ∉ dictKeys d := by
  induction d with
  | nil => simp [dictGet, dictKeys]
  | cons p rest ih =>
    obtain ⟨k2, v2⟩ := p
    by_cases hk : k2 = k
    · simp [dictGet, if_pos hk, dictKeys, hk]
    · simp only [dictGet, if_neg hk, dictKeys, List.map_cons, List.mem_cons]
      rw [ih]
      constructor
      · rintro h (rfl | hm)
        · exact hk rfl
        · exact h hm
      · intro h hm
        exact h (Or.inr hm)

theorem mem_setAdd {α : Type} [DecidableEq α] (x i : α) (l : List α) :
    i ∈ setAdd x l ↔ i ∈ l ∨ i = x := by
  by_cases hx : x ∈ l
  · simp only [setAdd, if_pos hx]
    constructor
    · exact Or.inl
    · rintro (h | rfl)
      · exact h
      · exact hx
  · simp [setAdd, if_neg hx]

theorem mem_invAdd (g g2 : List Nat) (rid i : ℤ) (inv : List (List Nat × List ℤ)) :
    i ∈ (dictGet g (invAdd g2 rid inv)).getD [] ↔
      i ∈ (dictGet g inv).getD [] ∨ (i = rid ∧ g = g2) := by
  unfold invAdd
  match h2 : dictGet g2 inv with
  | some ids =>
    by_cases hg : g = g2
    · subst hg
      rw [dictGet_dictSet_self, h2]
      simpa using mem_setAdd rid i ids
    · rw [dictGet_dictSet_ne g2 g _ inv hg]
      simp [hg]
  | none =>
    by_cases hg : g = g2
    · subst hg
      rw [dictGet_append_right g inv _ h2, h2]
      simp [dictGet]
    · by_cases hsome : (dictGet g inv).isSome
      · obtain ⟨u, hu⟩ := Option.isSome_iff_exists.mp hsome
        rw [dictGet_append_left g inv _ u hu, hu]
        simp [hg]
      · have hn : dictGet g inv = none := Option.not_isSome_iff_eq_none.mp hsome
        rw [dictGet_append_right g inv _ hn, hn]
        have hgg : ¬(g2 = g) := fun h => hg h.symm
        simp [dictGet, hgg, hg]

theorem mem_gramFold (grams : List (List Nat)) (rid i : ℤ) (g : List Nat)
    (inv : List (List Nat × List ℤ)) :
    i ∈ (dictGet g (grams.foldl (fun v g2 => invAdd g2 rid v) inv)).getD [] ↔
      i ∈ (dictGet g inv).getD [] ∨ (i = rid ∧ g ∈ grams) := by
  induction grams generalizing inv with
  | nil => simp
  | cons g2 gs ih =>
    simp only [List.foldl_cons]
    rw [ih]
    rw [mem_invAdd]
    constructor
    · rintro ((h | ⟨rfl, rfl⟩) | ⟨rfl, hm⟩)
      · exact Or.inl h
      · exact Or.inr ⟨rfl, by simp⟩
      · exact Or.inr ⟨rfl, by simp [hm]⟩
    · rintro (h | ⟨rfl, hm⟩)
      · exact Or.inl (Or.inl h)
      · rcases List.mem_cons.mp hm with rfl | hm2
        · exact Or.inl (Or.inr ⟨rfl, rfl⟩)
        · exact Or.inr ⟨rfl, hm2⟩

theorem buildEngine_state (recs : List NameRecord) (n maxc : ℕ) :
    ∀ (st : List (ℤ × NameRecord) × List (List Nat × List ℤ)),
      recs.foldl
        (fun (st : List (ℤ × NameRecord) × List (List Nat × List ℤ)) rec =>
          (dictSet rec.id rec st.1,
           (char_ngrams rec.normalized_name n).foldl (fun inv g => invAdd g rec.id inv) st.2))
        st =
      (recs.foldl (fun d rec => dictSet rec.id rec d) st.1,
       recs.foldl
         (fun inv rec =>
           (char_ngrams rec.normalized_name n).foldl (fun v g => invAdd g rec.id v) inv)
         st.2) := by
  induction recs with
  | nil => intro st; rfl
  | cons r rest ih =>
    intro st
    simp only [List.foldl_cons]
    exact ih _

theorem mem_invGet_build (recs : List NameRecord) (n maxc : ℕ) (g : List Nat) (i : ℤ) :
    i ∈ invGet (buildEngine recs n maxc) g ↔
      ∃ r ∈ recs, r.id = i ∧ g ∈ char_ngrams r.normalized_name n := by
  have hrw : invGet (buildEngine recs n maxc) g =
      (dictGet g
        (recs.foldl
          (fun inv rec =>
            (char_ngrams rec.normalized_name n).foldl (fun v g2 => invAdd g2 rec.id v) inv)
          [])).getD [] := by
    unfold invGet buildEngine
    rw [buildEngine_state recs n maxc ([], [])]
  rw [hrw]
  have main : ∀ (rs : List NameRecord) (inv : List (List Nat × List ℤ)),
      i ∈ (dictGet g
        (rs.foldl
          (fun inv rec =>
            (char_ngrams rec.normalized_name n).foldl (fun v g2 => invAdd g2 rec.id v) inv)
          inv)).getD [] ↔
      i ∈ (dictGet g inv).getD [] ∨
        ∃ r ∈ rs, r.id = i ∧ g ∈ char_ngrams r.normalized_name n := by
    intro rs
    induction rs with
    | nil => simp
    | cons r rest ih =>
      intro inv
      simp only [List.foldl_cons]
      rw [ih, mem_gramFold]
      constructor
      · rintro ((h | ⟨rfl, hm⟩) | ⟨r2, hr2, rfl, hm⟩)
        · exact Or.inl h
        · exact Or.inr ⟨r, by simp, rfl, hm⟩
        · exact Or.inr ⟨r2, by simp [hr2], rfl, hm⟩
      · rintro (h | ⟨r2, hr2, rfl, hm⟩)
        · exact Or.inl (Or.inl h)
        · rcases List.mem_cons.mp hr2 with rfl | hr3
          · exact Or.inl (Or.inr ⟨rfl, hm⟩)
          · exact Or.inr ⟨r2, hr3, rfl, hm⟩
  rw [main recs []]
  simp [dictGet]

theorem mem_keys_dictSet (k : κ) (v : ν) (d : List (κ × ν)) (i : κ) :
    i ∈ dictKeys (dictSet k v d) ↔ i ∈ dictKeys d ∨ i = k := by
  induction d with
  | nil => simp [dictSet, dictKeys]
  | cons p rest ih =>
    obtain ⟨k2, v2⟩ := p
    by_cases hk : k2 = k
    · subst hk
      simp only [dictSet, if_true]
      simp only [dictKeys, List.map_cons, List.mem_cons]
      tauto
    · simp only [dictSet, if_neg hk, dictKeys, List.map_cons, List.mem_cons]
      rw [show (dictSet k v rest).map Prod.fst = dictKeys (dictSet k v rest) from rfl, ih]
      rw [show rest.map Prod.fst = dictKeys rest from rfl]
      tauto

theorem mem_keys_buildEngine (recs : List NameRecord) (n maxc : ℕ) (i : ℤ) :
    i ∈ dictKeys (buildEngine recs n maxc).records_by_id ↔ ∃ r ∈ recs, r.id = i := by
  have hrw : (buildEngine recs n maxc).records_by_id =
      recs.foldl (fun d rec => dictSet rec.id rec d) [] := by
    unfold buildEngine
    rw [buildEngine_state recs n maxc ([], [])]
  rw [hrw]
  have main : ∀ (rs : List NameRecord) (d : List (ℤ × NameRecord)),
      i ∈ dictKeys (rs.foldl (fun d rec => dictSet rec.id rec d) d) ↔
        i ∈ dictKeys d ∨ ∃ r ∈ rs, r.id = i := by
    intro rs
    induction rs with
    | nil => simp
    | cons r rest ih =>
      intro d
      simp only [List.foldl_cons]
      rw [ih, mem_keys_dictSet]
      simp only [List.exists_mem_cons_iff]
      constructor
      · rintro ((h | rfl) | h)
        · exact Or.inl h
        · exact Or.inr (Or.inl rfl)
        · exact Or.inr (Or.inr h)
      · rintro (h | (h | h))
        · exact Or.inl (Or.inl h)
        · exact Or.inl (Or.inr h.symm)
        · exact Or.inr h
  rw [main recs []]
  simp [dictKeys]

theorem mem_candidateUnion (e : SearchEngine) (q : List Nat) (i : ℤ) :
    i ∈ candidateUnion e q ↔ ∃ g ∈ char_ngrams q e.ngram_n, i ∈ invGet e g := by
  have inner : ∀ (ids : List ℤ) (acc : List ℤ),
      i ∈ ids.foldl (fun acc2 j => setAdd j acc2) acc ↔ i ∈ acc ∨ i ∈ ids := by
    intro ids
    induction ids with
    | nil => simp
    | cons j js ih =>
      intro acc
      simp only [List.foldl_cons]
      rw [ih, mem_setAdd]
      constructor
      · rintro ((h | rfl) | h)
        · exact Or.inl h
        · exact Or.inr (by simp)
        · exact Or.inr (by simp [h])
      · rintro (h | h)
        · exact Or.inl (Or.inl h)
        · rcases List.mem_cons.mp h with rfl | h2
          · exact Or.inl (Or.inr rfl)
          · exact Or.inr h2
  have main : ∀ (gs : List (List Nat)) (acc : List ℤ),
      i ∈ gs.foldl (fun acc g => (invGet e g).foldl (fun acc2 j => setAdd j acc2) acc) acc ↔
        i ∈ acc ∨ ∃ g ∈ gs, i ∈ invGet e g := by
    intro gs
    induction gs with
    | nil => simp
    | cons g gs2 ih =>
      intro acc
      simp only [List.foldl_cons]
      rw [ih, inner]
      constructor
      · rintro ((h | h) | ⟨g2, hg2, h⟩)
        · exact Or.inl h
        · exact Or.inr ⟨g, by simp, h⟩
        · exact Or.inr ⟨g2, by simp [hg2], h⟩
      · rintro (h | ⟨g2, hg2, h⟩)
        · exact Or.inl (Or.inl h)
        · rcases List.mem_cons.mp hg2 with rfl | h2
          · exact Or.inl (Or.inr h)
          · exact Or.inr ⟨g2, h2, h⟩
  rw [candidateUnion, main]
  simp

end BuildLemmas

/-- C6: when the query's n-grams hit no posting list (empty union), candidate
generation falls back to the id set of the entire record set — exactly the
keys of `records_by_id`, which are exactly the record ids — and is nonempty
whenever the repository holds at least one record. -/
theorem C6_empty_union_fallback (recs : List NameRecord) (n maxc : ℕ) (q : List Nat)
    (hempty : candidateUnion (buildEngine recs n maxc) q = []) :
    candidate_ids (buildEngine recs n maxc) q =
      dictKeys (buildEngine recs n maxc).records_by_id ∧
    (∀ i, i ∈ candidate_ids (buildEngine recs n maxc) q ↔ ∃ r ∈ recs, r.id = i) ∧
    (recs ≠ [] → candidate_ids (buildEngine recs n maxc) q ≠ []) := by
  have h1 : candidate_ids (buildEngine recs n maxc) q =
      dictKeys (buildEngine recs n maxc).records_by_id := by
    simp [candidate_ids, hempty]
  have h2 : ∀ i, i ∈ candidate_ids (buildEngine recs n maxc) q ↔ ∃ r ∈ recs, r.id = i := by
    intro i
    rw [h1]
    exact mem_keys_buildEngine recs n maxc i
  refine ⟨h1, h2, ?_⟩
  intro hne
  match hr : recs with
  | [] => exact absurd rfl hne
  | r :: rest =>
    have hmem : r.id ∈ candidate_ids (buildEngine (r :: rest) n maxc) q :=
      (h2 r.id).mpr ⟨r, by simp, rfl⟩
    intro hnil
    rw [hnil] at hmem
    simp at hmem

/-- Witness for C6: the query `"zzz"` against a one-record repository holding
`"juan"` shares no 3-gram with it, yet the candidate set is the whole record
set `[1]`. -/
theorem C6_empty_union_fallback_witness :
    candidate_ids (buildEngine [⟨1, codesOf ("juan"), codesOf ("juan")⟩] 3 2000)
      (codesOf ("zzz")) = [1] ∧
    candidate_ids (buildEngine [⟨1, codesOf ("juan"), codesOf ("juan")⟩] 3 2000)
      (codesOf ("zzz")) ≠ [] := by
  have h := C6_empty_union_fallback [⟨1, codesOf ("juan"), codesOf ("juan")⟩] 3 2000
    (codesOf ("zzz")) (by decide)
  exact ⟨by rw [h.1]; rfl, h.2.2 (by simp)⟩

/-- C2 counterexample: the engine's gram function takes no padding — the
3-gram `" ju"` of the spec's padded slicing of `"juan"` is produced by the
padded model but not by `char_ngrams`, and the built index of a repository
holding `"juan"` has an empty posting list for it. -/
theorem C2_counterexample :
    codesOf (" ju") ∈ paddedNgramsSpec (codesOf ("juan")) 3 ∧
    codesOf (" ju") ∉ char_ngrams (codesOf ("juan")) 3 ∧
    invGet (buildEngine [⟨1, codesOf ("juan"), codesOf ("juan")⟩] 3 2000)
      (codesOf (" ju")) = [] := by decide

/-- C2 amended: the index builder computes the n-grams of the record's
normalized name with `char_ngrams` and no padding (whole string as a single
gram when its length is at most `n`, no grams when empty), and candidate
generation computes the query's n-grams with the same unpadded function: an id
is in a posting list exactly when some record with that id has the gram among
its unpadded n-grams, and in the candidate union exactly when such a record
shares an unpadded n-gram with the query. -/
theorem C2_unpadded_index (recs : List NameRecord) (n maxc : ℕ) (q : List Nat) (i : ℤ) :
    (∀ g, i ∈ invGet (buildEngine recs n maxc) g ↔
      ∃ r ∈ recs, r.id = i ∧ g ∈ char_ngrams r.normalized_name n) ∧
    (i ∈ candidateUnion (buildEngine recs n maxc) q ↔
      ∃ r ∈ recs, r.id = i ∧ ∃ g ∈ char_ngrams q n, g ∈ char_ngrams r.normalized_name n) := by
  refine ⟨fun g => mem_invGet_build recs n maxc g i, ?_⟩
  rw [mem_candidateUnion]
  have hn : (buildEngine recs n maxc).ngram_n = n := rfl
  rw [hn]
  constructor
  · rintro ⟨g, hg, hi⟩
    obtain ⟨r, hr, hid, hgr⟩ := (mem_invGet_build recs n maxc g i).mp hi
    exact ⟨r, hr, hid, g, hg, hgr⟩
  · rintro ⟨r, hr, hid, g, hg, hgr⟩
    exact ⟨g, hg, (mem_invGet_build recs n maxc g i).mpr ⟨r, hr, hid, hgr⟩⟩

/-- Witness for C2: the unpadded gram `"jua"` of record 1 is indexed for it. -/
theorem C2_unpadded_index_witness :
    codesOf ("jua") ∈ char_ngrams (codesOf ("juan")) 3 ∧
    1 ∈ invGet (buildEngine [⟨1, codesOf ("juan"), codesOf ("juan")⟩] 3 2000)
      (codesOf ("jua")) := by
  refine ⟨by decide, ?_⟩
  exact ((C2_unpadded_index [⟨1, codesOf ("juan"), codesOf ("juan")⟩] 3 2000
    (codesOf ("juan")) 1).1 (codesOf ("jua"))).mpr
    ⟨⟨1, codesOf ("juan"), codesOf ("juan")⟩, by simp, rfl, by decide⟩

theorem scoreLoop_isSome (e : SearchEngine) (q : List Nat) (th w : ℚ) :
    ∀ ids : List ℤ, (∀ i ∈ ids, (dictGet i e.records_by_id).isSome) →
      (scoreLoop e q th w ids).isSome := by
  intro ids
  induction ids with
  | nil => intro _; simp [scoreLoop]
  | cons i rest ih =>
    intro h
    have hi := h i (by simp)
    obtain ⟨rec, hrec⟩ := Option.isSome_iff_exists.mp hi
    have hrest := ih (fun j hj => h j (List.mem_cons_of_mem _ hj))
    obtain ⟨l, hl⟩ := Option.isSome_iff_exists.mp hrest
    simp [scoreLoop, hrec, hl]

theorem candidate_ids_present (recs : List NameRecord) (n maxc : ℕ) (q : List Nat) :
    ∀ i ∈ candidate_ids (buildEngine recs n maxc) q, ∃ r ∈ recs, r.id = i := by
  intro i hi
  unfold candidate_ids at hi
  by_cases hc : candidateUnion (buildEngine recs n maxc) q = []
  · rw [if_pos hc] at hi
    exact (mem_keys_buildEngine recs n maxc i).mp hi
  · rw [if_neg hc] at hi
    have hmem : i ∈ candidateUnion (buildEngine recs n maxc) q := by
      by_cases hcap : (buildEngine recs n maxc).max_candidates <
          (candidateUnion (buildEngine recs n maxc) q).length
      · rw [if_pos hcap] at hi
        have h1 : i ∈ List.insertionSort (fun a b : ℤ => a ≤ b)
            (candidateUnion (buildEngine recs n maxc) q) :=
          (List.take_sublist _ _).subset hi
        exact (List.perm_insertionSort (fun a b : ℤ => a ≤ b) _).subset h1
      · rw [if_neg hcap] at hi
        exact hi
    obtain ⟨g, _, hg⟩ := (mem_candidateUnion _ q i).mp hmem
    obtain ⟨r, hr, hid, _⟩ := (mem_invGet_build recs n maxc g i).mp hg
    exact ⟨r, hr, hid⟩

/-- C4 amended: the core search never raises, whatever `w_token` is:
`search_explain` on an engine built from any record list returns normally for
every query, threshold, limit and `w_token` — including `w_token` outside
`[0, 1]`, which the engine does not validate (the range check lives in the
HTTP layer of `app.py` and in `matching.combined_score`, which
`search_explain` does not call). -/
theorem C4_search_total (recs : List NameRecord) (n maxc : ℕ) (q : List Nat)
    (th : ℚ) (limit : ℕ) (w : ℚ) :
    (search_explain (buildEngine recs n maxc) q th limit w).isSome = true := by
  have hpres : ∀ i ∈ candidate_ids (buildEngine recs n maxc) q,
      (dictGet i (buildEngine recs n maxc).records_by_id).isSome := by
    intro i hi
    obtain ⟨r, hr, hid⟩ := candidate_ids_present recs n maxc q i hi
    rw [Option.isSome_iff_ne_none]
    intro hnone
    exact (dictGet_eq_none_iff i _).mp hnone
      ((mem_keys_buildEngine recs n maxc i).mpr ⟨r, hr, hid⟩)
  have hloop := scoreLoop_isSome (buildEngine recs n maxc) q th w
    (candidate_ids (buildEngine recs n maxc) q) hpres
  obtain ⟨scored, hs⟩ := Option.isSome_iff_exists.mp hloop
  unfold search_explain
  simp only [hs]
  rfl

/-- Witness for C4 at a concrete engine and an out-of-range weight. -/
theorem C4_search_total_witness :
    (search_explain
      (buildEngine [⟨1, codesOf ("juan perez"), codesOf ("juan perez")⟩] 3 2000)
      (codesOf ("x")) 50 5 (mkRat 3 2)).isSome = true :=
  C4_search_total [⟨1, codesOf ("juan perez"), codesOf ("juan perez")⟩] 3 2000
    (codesOf ("x")) 50 5 (mkRat 3 2)

/-- C4 counterexample: with `w_token = 2`, outside `[0, 1]`, `search_explain`
does not raise an invalid-argument condition — it returns a normal result
(scored with the out-of-range weight). -/
theorem C4_counterexample :
    search_explain
      (buildEngine [⟨1, codesOf ("juan perez"), codesOf ("juan perez")⟩] 3 2000)
      (codesOf ("juan perez")) 0 10 2 =
      some ([⟨1, codesOf ("juan perez"), 100, 100, 100, 2⟩], 1) := by decide

/-- The two-record dataset of the spec's worked example, with normalized names
computed by the loader (`normalize(name)`). -/
def exampleEngine : SearchEngine :=
  buildEngine
    [⟨1, codesOf ("Juan Pérez"), normalize_strict (codesOf ("Juan Pérez"))⟩,
     ⟨2, codesOf ("Pérez, Juan"), normalize_strict (codesOf ("Pérez, Juan"))⟩]
    3 2000

/-- C5 counterexample: normalization does not reorder tokens —
`"Pérez, Juan"` normalizes to `"perez juan"`, not to `"juan perez"` as the
example asserts, so the two candidates do not share one normalized form. -/
theorem C5_counterexample :
    normalize_strict (codesOf ("Pérez, Juan")) = codesOf ("perez juan") ∧
    normalize_strict (codesOf ("Pérez, Juan")) ≠ codesOf ("juan perez") := by decide

/-- C5 amended: for the query `"Juan Perez"` against the two-record dataset,
record 1 normalizes to `"juan perez"` and scores similarity `100.0`, record 2
normalizes to `"perez juan"` and scores token `100`, edit `50`, similarity
`82.5` at the default `w_token = 0.65`; the order `[1, 2]` comes from the
similarity comparison (not from the id tie-break), and the tie-break pass
finds no tie group at all. -/
theorem C5_example_search :
    normalize_strict (codesOf ("Juan Pérez")) = codesOf ("juan perez") ∧
    normalize_strict (codesOf ("Pérez, Juan")) = codesOf ("perez juan") ∧
    normalize_strict (codesOf ("Juan Perez")) = codesOf ("juan perez") ∧
    search_explain exampleEngine (normalize_strict (codesOf ("Juan Perez"))) 70 10
        (mkRat 13 20) =
      some ([⟨1, codesOf ("Juan Pérez"), 100, 100, 100, mkRat 13 20⟩,
             ⟨2, codesOf ("Pérez, Juan"), mkRat 165 2, 100, 50, mkRat 13 20⟩], 2) ∧
    mkRat 165 2 ≠ 100 ∧
    compute_tie_break_stats
      [⟨1, codesOf ("Juan Pérez"), 100, 100, 100, mkRat 13 20⟩,
       ⟨2, codesOf ("Pérez, Juan"), mkRat 165 2, 100, 50, mkRat 13 20⟩] =
      (0, 0, 0, 0) := by decide

/-- C10: on a cache hit — the key tuple `(normalized query, threshold, limit,
w_token, explain, include_by_id)` is already stored — `run_match` returns the
cached payload and increments `total_requests`, the per-normalized-query
counter and `total_cache_hits` by exactly one each, while the rolling latency
and candidate windows and all four tie-break counters are unchanged (no
scoring happens on this path). -/
theorem C10_cache_hit_frame (e : SearchEngine) (C : ℕ) (nameQ : List Nat) (th : ℚ)
    (limit : ℕ) (w : ℚ) (explain byId : Bool) (latency : ℚ) (st : AppState)
    (p : Payload)
    (hhit : dictGet ((normalize_strict nameQ, th, limit, w, explain, byId) : CacheKey)
      st.cache = some p) :
    ∃ st2 : AppState,
      run_match e C nameQ th limit w explain byId latency st = some (p, st2) ∧
      st2.metrics.total_requests = st.metrics.total_requests + 1 ∧
      dictGet (normalize_strict nameQ) st2.metrics.top_queries =
        some ((dictGet (normalize_strict nameQ) st.metrics.top_queries).getD 0 + 1) ∧
      (∀ q2, q2 ≠ normalize_strict nameQ →
        dictGet q2 st2.metrics.top_queries = dictGet q2 st.metrics.top_queries) ∧
      st2.metrics.total_cache_hits = st.metrics.total_cache_hits + 1 ∧
      st2.metrics.rolling = st.metrics.rolling ∧
      st2.metrics.tie_groups_total = st.metrics.tie_groups_total ∧
      st2.metrics.tie_resolved_by_token = st.metrics.tie_resolved_by_token ∧
      st2.metrics.tie_resolved_by_edit = st.metrics.tie_resolved_by_edit ∧
      st2.metrics.tie_resolved_by_id = st.metrics.tie_resolved_by_id := by
  have hget : lruGet ((normalize_strict nameQ, th, limit, w, explain, byId) : CacheKey)
      st.cache =
      (some p, dictEraseAll (normalize_strict nameQ, th, limit, w, explain, byId) st.cache
        ++ [((normalize_strict nameQ, th, limit, w, explain, byId), p)]) := by
    simp [lruGet, hhit]
  refine ⟨⟨dictEraseAll (normalize_strict nameQ, th, limit, w, explain, byId) st.cache
      ++ [((normalize_strict nameQ, th, limit, w, explain, byId), p)],
    inc_cache_hit (inc_request (normalize_strict nameQ) st.metrics)⟩, ?_, ?_, ?_, ?_,
    ?_, rfl, rfl, rfl, rfl, rfl⟩
  · simp only [run_match, hget]
  · simp [inc_cache_hit, inc_request]
  · simp only [inc_cache_hit, inc_request]
    exact dictGet_dictSet_self _ _ _
  · intro q2 hq2
    simp only [inc_cache_hit, inc_request]
    exact dictGet_dictSet_ne _ q2 _ _ hq2
  · simp [inc_cache_hit, inc_request]

/-- Witness for C10: a hit on a one-entry cache for the normalized query
`"a"`. -/
theorem C10_cache_hit_frame_witness :
    ∃ st2 : AppState,
      run_match (buildEngine [] 3 2000) 256 (codesOf ("A")) 70 10 (mkRat 13 20)
        false true 0
        ⟨[((codesOf ("a"), 70, 10, mkRat 13 20, false, true), ⟨[], none⟩)],
         ⟨0, 0, 0, [], ⟨5000, [], []⟩, 0, 0, 0, 0⟩⟩ =
        some (⟨[], none⟩, st2) ∧
      st2.metrics.total_requests = 1 ∧
      st2.metrics.total_cache_hits = 1 ∧
      st2.metrics.rolling = ⟨5000, [], []⟩ := by
  obtain ⟨st2, h1, h2, _, _, h5, h6, _⟩ :=
    C10_cache_hit_frame (buildEngine [] 3 2000) 256 (codesOf ("A")) 70 10 (mkRat 13 20)
      false true 0
      ⟨[((codesOf ("a"), 70, 10, mkRat 13 20, false, true), ⟨[], none⟩)],
       ⟨0, 0, 0, [], ⟨5000, [], []⟩, 0, 0, 0, 0⟩⟩
      ⟨[], none⟩ (by decide)
  exact ⟨st2, h1, h2, h5, h6⟩

section DedupeLemmas

variable {κ ν : Type} [DecidableEq κ]

theorem dictGet_some_mem (k : κ) (v : ν) (d : List (κ × ν)) (h : dictGet k d = some v) :
    (k, v) ∈ d := by
  induction d with
  | nil => simp [dictGet] at h
  | cons p rest ih =>
    obtain ⟨k2, v2⟩ := p
    by_cases hk : k2 = k
    · subst hk
      simp only [dictGet, if_true, Option.some.injEq] at h
      subst h
      simp
    · simp only [dictGet, if_neg hk] at h
      exact List.mem_cons_of_mem _ (ih h)

theorem mem_dictSet_elim (x : κ × ν) (k : κ) (v : ν) (d : List (κ × ν))
    (h : x ∈ dictSet k v d) : x = (k, v) ∨ x ∈ d := by
  induction d with
  | nil => simpa [dictSet] using h
  | cons p rest ih =>
    obtain ⟨k2, v2⟩ := p
    by_cases hk : k2 = k
    · subst hk
      simp only [dictSet, if_true, List.mem_cons] at h
      rcases h with h | h
      · exact Or.inl h
      · exact Or.inr (List.mem_cons_of_mem _ h)
    · simp only [dictSet, if_neg hk, List.mem_cons] at h
      rcases h with rfl | h
      · exact Or.inr (by simp)
      · rcases ih h with h2 | h2
        · exact Or.inl h2
        · exact Or.inr (List.mem_cons_of_mem _ h2)

end DedupeLemmas

/-- The invariant carried by every dedupe group: nonempty key, nonempty member
list, and every member's strict normalized name equals the group key. -/
def GroupInv (g : List Nat × List (ℤ × List Nat)) : Prop :=
  g.1 ≠ [] ∧ g.2 ≠ [] ∧ ∀ p ∈ g.2, normalize_strict p.2 = g.1

theorem groupAdd_inv (k : List Nat) (p : ℤ × List Nat)
    (gs : List (List Nat × List (ℤ × List Nat)))
    (hk : k ≠ []) (hp : normalize_strict p.2 = k)
    (hgs : ∀ g ∈ gs, GroupInv g) : ∀ g ∈ groupAdd k p gs, GroupInv g := by
  intro g hg
  unfold groupAdd at hg
  match hd : dictGet k gs with
  | some ms =>
    rw [hd] at hg
    rcases mem_dictSet_elim g k (ms ++ [p]) gs hg with rfl | hmem
    · have hks : (k, ms) ∈ gs := dictGet_some_mem k ms gs hd
      have hInv := hgs _ hks
      refine ⟨hk, by simp, ?_⟩
      intro p2 hp2
      rcases List.mem_append.mp hp2 with h2 | h2
      · exact hInv.2.2 p2 h2
      · simp at h2
        subst h2
        exact hp
    · exact hgs _ hmem
  | none =>
    rw [hd] at hg
    rcases List.mem_append.mp hg with hmem | hnew
    · exact hgs _ hmem
    · simp at hnew
      subst hnew
      exact ⟨hk, by simp, by intro p2 hp2; simp at hp2; subst hp2; exact hp⟩

theorem buildGroups_inv (rows : List (ℤ × List Nat)) :
    ∀ g ∈ buildGroups rows, GroupInv g := by
  have main : ∀ (rs : List (ℤ × List Nat)) (gs : List (List Nat × List (ℤ × List Nat))),
      (∀ g ∈ gs, GroupInv g) →
      ∀ g ∈ rs.foldl
        (fun gs p =>
          let k := normalize_strict p.2
          if k = [] then gs else groupAdd k p gs) gs, GroupInv g := by
    intro rs
    induction rs with
    | nil => intro gs h; exact h
    | cons r rest ih =>
      intro gs h
      simp only [List.foldl_cons]
      by_cases hk : normalize_strict r.2 = []
      · simpa [hk] using ih gs h
      · have := groupAdd_inv (normalize_strict r.2) r gs hk rfl h
        simpa [hk] using ih _ this
  exact main rows [] (by simp)

theorem sumLens_dictSet (k : List Nat) (ms : List (ℤ × List Nat)) (p : ℤ × List Nat)
    (gs : List (List Nat × List (ℤ × List Nat))) (hd : dictGet k gs = some ms) :
    ((dictSet k (ms ++ [p]) gs).map (fun g => g.2.length)).sum =
      ((gs.map (fun g => g.2.length)).sum) + 1 := by
  induction gs with
  | nil => simp [dictGet] at hd
  | cons g2 rest ih =>
    obtain ⟨k2, v2⟩ := g2
    by_cases hk : k2 = k
    · subst hk
      simp only [dictGet, if_true, Option.some.injEq] at hd
      subst hd
      simp only [dictSet, if_true, List.map_cons, List.sum_cons, List.length_append]
      simp
      omega
    · simp only [dictGet, if_neg hk] at hd
      simp only [dictSet, if_neg hk, List.map_cons, List.sum_cons, ih hd]
      omega

theorem sumLens_groupAdd (k : List Nat) (p : ℤ × List Nat)
    (gs : List (List Nat × List (ℤ × List Nat))) :
    ((groupAdd k p gs).map (fun g => g.2.length)).sum =
      ((gs.map (fun g => g.2.length)).sum) + 1 := by
  unfold groupAdd
  match hd : dictGet k gs with
  | some ms => exact sumLens_dictSet k ms p gs hd
  | none => simp

theorem buildGroups_sum (rows : List (ℤ × List Nat)) :
    ((buildGroups rows).map (fun g => g.2.length)).sum =
      (rows.filter (fun p => decide (normalize_strict p.2 ≠ []))).length := by
  have main : ∀ (rs : List (ℤ × List Nat)) (gs : List (List Nat × List (ℤ × List Nat))),
      ((rs.foldl
        (fun gs p =>
          let k := normalize_strict p.2
          if k = [] then gs else groupAdd k p gs) gs).map (fun g => g.2.length)).sum =
      ((gs.map (fun g => g.2.length)).sum) +
        (rs.filter (fun p => decide (normalize_strict p.2 ≠ []))).length := by
    intro rs
    induction rs with
    | nil => intro gs; simp
    | cons r rest ih =>
      intro gs
      simp only [List.foldl_cons, List.filter_cons]
      by_cases hk : normalize_strict r.2 = []
      · simp only [hk, if_true]
        simpa using ih gs
      · rw [if_neg hk]
        have : (decide (normalize_strict r.2 ≠ [])) = true := by simp [hk]
        rw [this]
        simp only [if_true, List.length_cons]
        rw [ih (groupAdd (normalize_strict r.2) r gs), sumLens_groupAdd]
        omega
  have := main rows []
  simpa using this

theorem groupRecord_min (g : List Nat × List (ℤ × List Nat)) (hne : g.2 ≠ []) :
    (groupRecord g).id ∈ g.2.map Prod.fst ∧
    (∀ j ∈ g.2.map Prod.fst, (groupRecord g).id ≤ j) ∧
    List.Sorted (fun a b : ℤ => a ≤ b) (groupIdsOf g) ∧
    List.Perm (groupIdsOf g) (g.2.map Prod.fst) ∧
    (groupRecord g).normalized_name = g.1 := by
  have hperm : List.Perm (List.insertionSort idLE g.2) g.2 := List.perm_insertionSort _ _
  have hsorted : List.Sorted idLE (List.insertionSort idLE g.2) :=
    List.sorted_insertionSort _ _
  match hms : List.insertionSort idLE g.2 with
  | [] =>
    rw [hms] at hperm
    exact absurd hperm.symm.eq_nil hne
  | m :: tail =>
    rw [hms] at hperm hsorted
    have hrec : groupRecord g = ⟨m.1, m.2, g.1⟩ := by
      unfold groupRecord
      rw [hms]
      rfl
    have hid : (groupRecord g).id = m.1 := by rw [hrec]
    refine ⟨?_, ?_, ?_, ?_, by rw [hrec]⟩
    · rw [hid]
      exact List.mem_map_of_mem Prod.fst (hperm.mem_iff.mp (by simp))
    · intro j hj
      rw [hid]
      obtain ⟨x, hx, rfl⟩ := List.mem_map.mp hj
      have hxm : x ∈ m :: tail := hperm.mem_iff.mpr hx
      rcases List.mem_cons.mp hxm with rfl | hxt
      · exact le_refl _
      · exact List.rel_of_sorted_cons hsorted x hxt
    · unfold groupIdsOf
      rw [hms]
      refine List.Pairwise.map Prod.fst ?_ hsorted
      intro a b hab
      exact hab
    · unfold groupIdsOf
      rw [hms]
      exact hperm.map Prod.fst

/-- C8: the dedupe pass groups source rows by their strict normalized key and
drops empty keys: the member counts over all groups sum to the number of rows
with a nonempty normalized key; exactly one record is produced per group; and
for every group the key is nonempty, every member normalizes to the key, the
representative id is a member id and is minimal among the member ids, the
record carries the group key as normalized name, and the recorded member-id
list is ascending and a permutation of the group's member ids. -/
theorem C8_dedupe_invariants (rows : List (ℤ × List Nat)) :
    ((buildGroups rows).map (fun g => g.2.length)).sum =
      (rows.filter (fun p => decide (normalize_strict p.2 ≠ []))).length ∧
    (dedupeRecords rows).length = (buildGroups rows).length ∧
    ∀ g ∈ buildGroups rows,
      g.1 ≠ [] ∧
      (∀ p ∈ g.2, normalize_strict p.2 = g.1) ∧
      (groupRecord g).id ∈ g.2.map Prod.fst ∧
      (∀ j ∈ g.2.map Prod.fst, (groupRecord g).id ≤ j) ∧
      List.Sorted (fun a b : ℤ => a ≤ b) (groupIdsOf g) ∧
      List.Perm (groupIdsOf g) (g.2.map Prod.fst) ∧
      (groupRecord g).normalized_name = g.1 := by
  refine ⟨buildGroups_sum rows, by simp [dedupeRecords], ?_⟩
  intro g hg
  have hinv := buildGroups_inv rows g hg
  have hmin := groupRecord_min g hinv.2.1
  exact ⟨hinv.1, hinv.2.2, hmin.1, hmin.2.1, hmin.2.2.1, hmin.2.2.2.1, hmin.2.2.2.2⟩

/-- Witness for C8 on a three-row source with one duplicate pair and one row
with an empty normalized key. -/
theorem C8_dedupe_invariants_witness :
    ((buildGroups [(2, codesOf ("Juan Pérez")), (1, codesOf ("juan  perez")),
        (3, codesOf ("!!"))]).map (fun g => g.2.length)).sum = 2 ∧
    (dedupeRecords [(2, codesOf ("Juan Pérez")), (1, codesOf ("juan  perez")),
        (3, codesOf ("!!"))]).map NameRecord.id = [1] := by
  constructor
  · rw [(C8_dedupe_invariants [(2, codesOf ("Juan Pérez")), (1, codesOf ("juan  perez")),
        (3, codesOf ("!!"))]).1]
    decide
  · decide

theorem scoreLoop_mem (e : SearchEngine) (q : List Nat) (th w : ℚ) :
    ∀ (ids : List ℤ) (l : List ScoredFull), scoreLoop e q th w ids = some l →
      ∀ m ∈ l, ∃ rid ∈ ids, ∃ rec,
        dictGet rid e.records_by_id = some rec ∧ m = mkScored q w rec := by
  intro ids
  induction ids with
  | nil =>
    intro l h m hm
    simp only [scoreLoop, Option.some.injEq] at h
    subst h
    simp at hm
  | cons i rest ih =>
    intro l h m hm
    simp only [scoreLoop] at h
    match hrec : dictGet i e.records_by_id with
    | none => rw [hrec] at h; exact absurd h (by simp)
    | some rec =>
      rw [hrec] at h
      match hrest : scoreLoop e q th w rest with
      | none => rw [hrest] at h; exact absurd h (by simp)
      | some l2 =>
        rw [hrest] at h
        simp only [Option.some.injEq] at h
        subst h
        by_cases hth : th ≤ (mkScored q w rec).simRaw
        · rw [if_pos hth] at hm
          rcases List.mem_cons.mp hm with rfl | hm2
          · exact ⟨i, by simp, rec, hrec, rfl⟩
          · obtain ⟨rid, hrid, rec2, hget, hmk⟩ := ih l2 hrest m hm2
            exact ⟨rid, List.mem_cons_of_mem _ hrid, rec2, hget, hmk⟩
        · rw [if_neg hth] at hm
          obtain ⟨rid, hrid, rec2, hget, hmk⟩ := ih l2 hrest m hm
          exact ⟨rid, List.mem_cons_of_mem _ hrid, rec2, hget, hmk⟩

theorem dictGet_buildEngine_mem (recs : List NameRecord) (n maxc : ℕ) (i : ℤ)
    (r : NameRecord)
    (h : dictGet i (buildEngine recs n maxc).records_by_id = some r) :
    r ∈ recs ∧ r.id = i := by
  have hrw : (buildEngine recs n maxc).records_by_id =
      recs.foldl (fun d rec => dictSet rec.id rec d) [] := by
    unfold buildEngine
    rw [buildEngine_state recs n maxc ([], [])]
  rw [hrw] at h
  have main : ∀ (rs : List NameRecord) (d : List (ℤ × NameRecord)),
      dictGet i (rs.foldl (fun d rec => dictSet rec.id rec d) d) = some r →
        dictGet i d = some r ∨ (r ∈ rs ∧ r.id = i) := by
    intro rs
    induction rs with
    | nil => intro d h2; exact Or.inl h2
    | cons rec rest ih =>
      intro d h2
      simp only [List.foldl_cons] at h2
      rcases ih (dictSet rec.id rec d) h2 with h3 | h3
      · by_cases hieq : i = rec.id
        · subst hieq
          rw [dictGet_dictSet_self] at h3
          have hr : r = rec := by injection h3 with h4; exact h4.symm
          subst hr
          exact Or.inr ⟨by simp, rfl⟩
        · rw [dictGet_dictSet_ne rec.id i rec d hieq] at h3
          exact Or.inl h3
      · exact Or.inr ⟨List.mem_cons_of_mem _ h3.1, h3.2⟩
  rcases main recs [] h with h2 | h2
  · simp [dictGet] at h2
  · exact h2

theorem scoredLE_iff (a b : ScoredFull) : scoredLE a b ↔
    (b.simRaw < a.simRaw ∨ (a.simRaw = b.simRaw ∧
      (b.tokRaw < a.tokRaw ∨ (a.tokRaw = b.tokRaw ∧
        (b.editRaw < a.editRaw ∨ (a.editRaw = b.editRaw ∧ a.id ≤ b.id)))))) := by
  unfold scoredLE sortKey
  rw [Prod.Lex.le_iff, Prod.Lex.le_iff, Prod.Lex.le_iff]
  simp [neg_lt_neg_iff, neg_inj]

/-- C1: every returned list of `search_explain` is the display truncation of a
list sorted by unrounded similarity descending, then unrounded token score
descending, then unrounded edit score descending, then id ascending; the
displayed score fields are the roundings (2 decimals, 3 for `w_token`) of
those raw scores, applied only after the sort, so rounding never influences
the order. -/
theorem C1_sort_order (recs : List NameRecord) (n maxc : ℕ) (q : List Nat)
    (th : ℚ) (limit : ℕ) (w : ℚ) (out : List ScoredShown) (cnt : ℕ)
    (h : search_explain (buildEngine recs n maxc) q th limit w = some (out, cnt)) :
    ∃ full : List ScoredFull,
      out = (full.map stripRaw).take limit ∧
      full.Pairwise (fun a b =>
        b.simRaw < a.simRaw ∨ (a.simRaw = b.simRaw ∧
          (b.tokRaw < a.tokRaw ∨ (a.tokRaw = b.tokRaw ∧
            (b.editRaw < a.editRaw ∨ (a.editRaw = b.editRaw ∧ a.id ≤ b.id)))))) ∧
      (∀ m ∈ full, ∃ rec ∈ recs,
        rec.id = m.id ∧
        m = mkScored q w rec ∧
        m.tokRaw = tokenSetScore q rec.normalized_name ∧
        m.editRaw = ratioQ q rec.normalized_name ∧
        m.simRaw = ratAdd (ratMul w m.tokRaw) (ratMul (ratSub 1 w) m.editRaw)) ∧
      ∀ m ∈ full, m.similarity = pyRound m.simRaw 2 ∧
        m.token_score = pyRound m.tokRaw 2 ∧
        m.edit_score = pyRound m.editRaw 2 ∧
        m.w_token = pyRound w 3 := by
  unfold search_explain at h
  match hscore : scoreLoop (buildEngine recs n maxc) q th w
      (candidate_ids (buildEngine recs n maxc) q) with
  | none => simp only [hscore] at h; exact absurd h (by simp)
  | some scored =>
    simp only [hscore, Option.some.injEq, Prod.mk.injEq] at h
    refine ⟨List.insertionSort scoredLE scored, h.1.symm, ?_, ?_, ?_⟩
    · have hs : List.Sorted scoredLE (List.insertionSort scoredLE scored) :=
        List.sorted_insertionSort scoredLE scored
      exact List.Pairwise.imp (fun hab => (scoredLE_iff _ _).mp hab) hs
    · intro m hm
      have hm2 : m ∈ scored :=
        (List.perm_insertionSort scoredLE scored).subset hm
      obtain ⟨rid, _, rec, hget, rfl⟩ := scoreLoop_mem (buildEngine recs n maxc)
        q th w _ scored hscore m hm2
      obtain ⟨hmem, _⟩ := dictGet_buildEngine_mem recs n maxc rid rec hget
      exact ⟨rec, hmem, rfl, rfl, rfl, rfl, rfl⟩
    · intro m hm
      have hm2 : m ∈ scored :=
        (List.perm_insertionSort scoredLE scored).subset hm
      obtain ⟨rid, _, rec, hget, rfl⟩ := scoreLoop_mem (buildEngine recs n maxc)
        q th w _ scored hscore m hm2
      exact ⟨rfl, rfl, rfl, rfl⟩

/-- Witness for C1 at the two-record example engine. -/
theorem C1_sort_order_witness :
    ∃ full : List ScoredFull,
      ([⟨1, codesOf ("Juan Pérez"), 100, 100, 100, mkRat 13 20⟩,
        ⟨2, codesOf ("Pérez, Juan"), mkRat 165 2, 100, 50, mkRat 13 20⟩] :
          List ScoredShown) = (full.map stripRaw).take 10 ∧
      full.Pairwise (fun a b =>
        b.simRaw < a.simRaw ∨ (a.simRaw = b.simRaw ∧
          (b.tokRaw < a.tokRaw ∨ (a.tokRaw = b.tokRaw ∧
            (b.editRaw < a.editRaw ∨ (a.editRaw = b.editRaw ∧ a.id ≤ b.id)))))) ∧
      (∀ m ∈ full, ∃ rec ∈
          ([⟨1, codesOf ("Juan Pérez"), normalize_strict (codesOf ("Juan Pérez"))⟩,
            ⟨2, codesOf ("Pérez, Juan"), normalize_strict (codesOf ("Pérez, Juan"))⟩] :
              List NameRecord),
        rec.id = m.id ∧
        m = mkScored (normalize_strict (codesOf ("Juan Perez"))) (mkRat 13 20) rec ∧
        m.tokRaw = tokenSetScore (normalize_strict (codesOf ("Juan Perez")))
          rec.normalized_name ∧
        m.editRaw = ratioQ (normalize_strict (codesOf ("Juan Perez")))
          rec.normalized_name ∧
        m.simRaw = ratAdd (ratMul (mkRat 13 20) m.tokRaw)
          (ratMul (ratSub 1 (mkRat 13 20)) m.editRaw)) ∧
      ∀ m ∈ full, m.similarity = pyRound m.simRaw 2 ∧
        m.token_score = pyRound m.tokRaw 2 ∧
        m.edit_score = pyRound m.editRaw 2 ∧
        m.w_token = pyRound (mkRat 13 20) 3 :=
  C1_sort_order
    [⟨1, codesOf ("Juan Pérez"), normalize_strict (codesOf ("Juan Pérez"))⟩,
     ⟨2, codesOf ("Pérez, Juan"), normalize_strict (codesOf ("Pérez, Juan"))⟩]
    3 2000 (normalize_strict (codesOf ("Juan Perez"))) 70 10 (mkRat 13 20)
    [⟨1, codesOf ("Juan Pérez"), 100, 100, 100, mkRat 13 20⟩,
     ⟨2, codesOf ("Pérez, Juan"), mkRat 165 2, 100, 50, mkRat 13 20⟩] 2 (by decide)

/-- Modelled from the spec: the 95th percentile as "the value at sorted index
`floor(0.95 * (n - 1))`, 0 if the window is empty". -/
def specP95 (l : List ℚ) : ℚ :=
  if l = [] then 0
  else (List.insertionSort (fun a b : ℚ => a ≤ b) l).getD
    (Nat.floor ((19 : ℚ) / 20 * ((l.length - 1 : ℕ) : ℚ))) 0

section RatBridges

theorem ratMul_eq (a b : ℚ) : ratMul a b = a * b := by
  unfold ratMul
  rw [Rat.mkRat_eq_div]
  push_cast
  conv_rhs => rw [← Rat.num_div_den a, ← Rat.num_div_den b]
  rw [div_mul_div_comm]

theorem ratInv_eq (a : ℚ) : ratInv a = a⁻¹ := by
  unfold ratInv
  have hval : a⁻¹ = ((a.den : ℚ)) / ((a.num : ℚ)) := by
    conv_lhs => rw [← Rat.num_div_den a]
    rw [inv_div]
  by_cases h : 0 ≤ a.num
  · rw [if_pos h, Rat.mkRat_eq_div, hval]
    congr 1
    exact_mod_cast congrArg (fun z : ℤ => (z : ℚ)) (Int.toNat_of_nonneg h)
  · rw [if_neg h, Rat.mkRat_eq_div, hval]
    push_cast
    have h2 : (0 : ℤ) ≤ -a.num := by omega
    have h3 : (((-a.num).toNat : ℚ)) = -(a.num : ℚ) := by
      have h4 := Int.toNat_of_nonneg h2
      exact_mod_cast congrArg (fun z : ℤ => (z : ℚ)) h4
    rw [h3, neg_div_neg_eq]

theorem ratDiv_eq (a b : ℚ) : ratDiv a b = a / b := by
  unfold ratDiv
  rw [ratMul_eq, ratInv_eq, div_eq_mul_inv]

theorem floor_19_20 (k : ℕ) : Nat.floor ((19 : ℚ) / 20 * (k : ℚ)) = 19 * k / 20 := by
  have h : (19 : ℚ) / 20 * (k : ℚ) = ((19 * k : ℕ) : ℚ) / ((20 : ℕ) : ℚ) := by
    push_cast
    ring
  rw [h, Nat.floor_div_nat, Nat.floor_natCast]

theorem p95Q_eq_spec (l : List ℚ) : p95Q l = specP95 l := by
  unfold p95Q specP95
  by_cases h : l = []
  · rw [if_pos h, if_pos h]
  · rw [if_neg h, if_neg h, floor_19_20]

theorem p95Q_mem (l : List ℚ) (h : l ≠ []) : p95Q l ∈ l := by
  unfold p95Q
  rw [if_neg h]
  have hlen : (List.insertionSort (fun a b : ℚ => a ≤ b) l).length = l.length :=
    (List.perm_insertionSort _ l).length_eq
  have hpos : 0 < l.length := List.length_pos.mpr h
  have hidx : 19 * (l.length - 1) / 20 < l.length := by
    have h1 : 19 * (l.length - 1) / 20 ≤ l.length - 1 := by
      have h2 : 19 * (l.length - 1) ≤ 20 * (l.length - 1) := by omega
      calc 19 * (l.length - 1) / 20 ≤ 20 * (l.length - 1) / 20 :=
            Nat.div_le_div_right h2
        _ = l.length - 1 := by omega
    omega
  rw [List.getD_eq_getElem _ _ (by omega : 19 * (l.length - 1) / 20 <
    (List.insertionSort (fun a b : ℚ => a ≤ b) l).length)]
  exact (List.perm_insertionSort (fun a b : ℚ => a ≤ b) l).subset
    (List.getElem_mem _)

end RatBridges

instance : IsTotal ((List Nat × ℕ) × ℕ) topRel := by
  constructor
  intro a b
  unfold topRel
  omega

instance : IsTrans ((List Nat × ℕ) × ℕ) topRel := by
  constructor
  intro a b c hab hbc
  unfold topRel at hab hbc ⊢
  omega

theorem zipIdxFrom_idx {α : Type} (s : ℕ) :
    ∀ (l : List α) (y : α × ℕ), y ∈ zipIdxFrom s l → s ≤ y.2 := by
  intro l
  induction l generalizing s with
  | nil => intro y hy; simp [zipIdxFrom] at hy
  | cons a rest ih =>
    intro y hy
    simp only [zipIdxFrom, List.mem_cons] at hy
    rcases hy with rfl | hy
    · exact le_refl s
    · have := ih (s + 1) y hy
      omega

theorem map_fst_orderedInsert (x : (List Nat × ℕ) × ℕ) :
    ∀ l : List ((List Nat × ℕ) × ℕ), (∀ y ∈ l, x.2 < y.2) →
      (List.orderedInsert topRel x l).map Prod.fst =
        List.orderedInsert countGE x.1 (l.map Prod.fst) := by
  intro l
  induction l with
  | nil => intro _; rfl
  | cons y ys ih =>
    intro hidx
    have hiff : topRel x y ↔ countGE x.1 y.1 := by
      unfold topRel countGE
      have hxy := hidx y (by simp)
      constructor
      · intro h
        omega
      · intro h
        omega
    simp only [List.orderedInsert]
    by_cases hc : topRel x y
    · rw [if_pos hc, if_pos (hiff.mp hc)]
      simp
    · rw [if_neg hc, if_neg (fun h2 => hc (hiff.mpr h2))]
      simp only [List.map_cons]
      rw [ih (fun z hz => hidx z (List.mem_cons_of_mem _ hz))]

theorem sort_zipIdx_comm :
    ∀ (l : List (List Nat × ℕ)) (s : ℕ),
      (List.insertionSort topRel (zipIdxFrom s l)).map Prod.fst =
        List.insertionSort countGE l := by
  intro l
  induction l with
  | nil => intro s; rfl
  | cons a rest ih =>
    intro s
    simp only [zipIdxFrom, List.insertionSort]
    rw [map_fst_orderedInsert (a, s) _ ?hidx, ih (s + 1)]
    case hidx =>
      intro y hy
      have hmem : y ∈ zipIdxFrom (s + 1) rest :=
        (List.perm_insertionSort topRel _).subset hy
      have := zipIdxFrom_idx (s + 1) rest y hmem
      omega

theorem specTopSort_eq (items : List (List Nat × ℕ)) :
    specTopSort items = List.insertionSort countGE items := by
  unfold specTopSort
  exact sort_zipIdx_comm items 0

/-- C9 counterexample: with 3 requests and 1 cache hit the snapshot reports
`0.3333`, the 4-decimal rounding of `hits / requests`, not the exact quotient
`1/3` the claim states. -/
theorem C9_counterexample :
    (snapshot ⟨0, 3, 1, [], ⟨5000, [], []⟩, 0, 0, 0, 0⟩ 0 10).cache_hit_rate =
      mkRat 3333 10000 ∧
    mkRat 3333 10000 ≠ mkRat 1 3 := by decide

/-- C9 amended: `snapshot` computes cache-hit rate as `hits / requests` (0 when
there are no requests) rounded to 4 decimals; each window's 95th percentile as
the value at sorted index `floor(0.95 * (n - 1))` (0 when empty, and a member
of the window otherwise) rounded to 2 decimals; each tie-break resolution
percentage as `count / tie_groups_total` (0 when there are no groups) rounded
to 4 decimals; and the top-K query list — unrounded — sorted by count
descending with ties broken by first-seen insertion order. -/
theorem C9_snapshot_formulas (m : Metrics) (now : ℚ) (k : ℕ) :
    ((snapshot m now k).cache_hit_rate =
      pyRound (if m.total_requests = 0 then 0
        else (m.total_cache_hits : ℚ) / (m.total_requests : ℚ)) 4) ∧
    ((snapshot m now k).latency_ms_p95 = pyRound (specP95 m.rolling.lat_ms) 2) ∧
    ((snapshot m now k).candidates_p95 =
      pyRound (specP95 (m.rolling.candidates.map (fun c => ((c : ℤ) : ℚ)))) 2) ∧
    (m.rolling.lat_ms ≠ [] → specP95 m.rolling.lat_ms ∈ m.rolling.lat_ms) ∧
    ((snapshot m now k).resolved_by_token_pct =
      pyRound (if m.tie_groups_total = 0 then 0
        else (m.tie_resolved_by_token : ℚ) / (m.tie_groups_total : ℚ)) 4) ∧
    ((snapshot m now k).resolved_by_edit_pct =
      pyRound (if m.tie_groups_total = 0 then 0
        else (m.tie_resolved_by_edit : ℚ) / (m.tie_groups_total : ℚ)) 4) ∧
    ((snapshot m now k).resolved_by_id_pct =
      pyRound (if m.tie_groups_total = 0 then 0
        else (m.tie_resolved_by_id : ℚ) / (m.tie_groups_total : ℚ)) 4) ∧
    ((snapshot m now k).top_queries = (specTopSort m.top_queries).take k) := by
  have hpct : ∀ c : ℕ,
      pyRound (if m.tie_groups_total = 0 then 0
        else ratDiv ((c : ℤ) : ℚ) ((m.tie_groups_total : ℤ) : ℚ)) 4 =
      pyRound (if m.tie_groups_total = 0 then 0
        else (c : ℚ) / (m.tie_groups_total : ℚ)) 4 := by
    intro c
    congr 1
    by_cases h : m.tie_groups_total = 0
    · rw [if_pos h, if_pos h]
    · rw [if_neg h, if_neg h, ratDiv_eq]
      push_cast
      rfl
  refine ⟨?_, ?_, ?_, ?_, ?_, ?_, ?_, ?_⟩
  · have h0 : (snapshot m now k).cache_hit_rate =
        pyRound (if m.total_requests = 0 then 0
          else ratDiv ((m.total_cache_hits : ℤ) : ℚ) ((m.total_requests : ℤ) : ℚ)) 4 := rfl
    rw [h0]
    congr 1
    by_cases h : m.total_requests = 0
    · rw [if_pos h, if_pos h]
    · rw [if_neg h, if_neg h, ratDiv_eq]
      push_cast
      rfl
  · have h0 : (snapshot m now k).latency_ms_p95 = pyRound (p95Q m.rolling.lat_ms) 2 := rfl
    rw [h0, p95Q_eq_spec]
  · have h0 : (snapshot m now k).candidates_p95 =
        pyRound (p95Q (m.rolling.candidates.map (fun c => ((c : ℤ) : ℚ)))) 2 := rfl
    rw [h0, p95Q_eq_spec]
  · intro h
    rw [← p95Q_eq_spec]
    exact p95Q_mem _ h
  · exact hpct m.tie_resolved_by_token
  · exact hpct m.tie_resolved_by_edit
  · exact hpct m.tie_resolved_by_id
  · have h0 : (snapshot m now k).top_queries =
        (List.insertionSort countGE m.top_queries).take k := rfl
    rw [h0, specTopSort_eq]

/-- The metrics state used to witness C9. -/
def witnessMetrics : Metrics :=
  ⟨0, 4, 1, [(codesOf ("a"), 2), (codesOf ("b"), 5), (codesOf ("c"), 2)],
   ⟨5000, [1, 5, 2], [10, 20, 30]⟩, 2, 1, 0, 1⟩

/-- Witness for C9: the percentile of the three-element window is a member of
it, and the reported top queries are the stable count-descending order
`b, a, c`. -/
theorem C9_snapshot_formulas_witness :
    specP95 witnessMetrics.rolling.lat_ms ∈ witnessMetrics.rolling.lat_ms ∧
    (snapshot witnessMetrics 0 10).top_queries =
      (specTopSort witnessMetrics.top_queries).take 10 ∧
    (snapshot witnessMetrics 0 10).top_queries =
      [(codesOf ("b"), 5), (codesOf ("a"), 2), (codesOf ("c"), 2)] := by
  have h := C9_snapshot_formulas witnessMetrics 0 10
  exact ⟨h.2.2.2.1 (by decide), h.2.2.2.2.2.2.2, by decide⟩

/-- Adjacent characters are never both spaces. -/
def noTwoSpaces (a b : Nat) : Prop := ¬(a = 32 ∧ b = 32)

/-- Canonical form of a normalized name: only lowercase ASCII letters and
single interior spaces, no leading or trailing space. -/
def Canon (r : List Nat) : Prop :=
  (∀ c ∈ r, isLowB c = true ∨ c = 32) ∧
  List.Chain' noTwoSpaces r ∧
  r.head? ≠ some 32 ∧ r.getLast? ≠ some 32

theorem mem_dropEnds (p : Nat → Bool) (x : List Nat) : ∀ c ∈ dropEnds p x, c ∈ x := by
  intro c hc
  unfold dropEnds at hc
  rw [List.mem_reverse] at hc
  have h1 : c ∈ (x.dropWhile p).reverse :=
    (List.dropWhile_suffix p).sublist.subset hc
  rw [List.mem_reverse] at h1
  exact (List.dropWhile_suffix p).sublist.subset h1

theorem charLower_ascii (c : Nat) (h : c ≤ 127) :
    charLower c ≤ 127 ∧ ¬(65 ≤ charLower c ∧ charLower c ≤ 90) := by
  unfold charLower
  by_cases h1 : 65 ≤ c ∧ c ≤ 90
  · rw [if_pos h1]
    omega
  · rw [if_neg h1, if_pos (by omega)]
    omega

theorem strip_accents_ascii (u : List Nat)
    (hu : ∀ c ∈ u, c ≤ 127 ∧ ¬(65 ≤ c ∧ c ≤ 90)) :
    ∀ c ∈ strip_accents u, c ≤ 127 ∧ ¬(65 ≤ c ∧ c ≤ 90) := by
  intro c hc
  unfold strip_accents at hc
  have hc2 := List.mem_of_mem_filter hc
  obtain ⟨c0, hc0, hcd⟩ := List.mem_flatMap.mp hc2
  have h0 := hu c0 hc0
  have hid : nfkd c0 = [c0] := by
    unfold nfkd
    rw [if_pos (by omega)]
  rw [hid] at hcd
  simp at hcd
  subst hcd
  exact h0

theorem titleStrip_subset (u : List Nat) : ∀ c ∈ titleStrip u, c ∈ u := by
  intro c hc
  unfold titleStrip at hc
  match h : titleConsume u with
  | some k =>
    rw [h] at hc
    exact List.mem_of_mem_drop hc
  | none =>
    rw [h] at hc
    exact hc

theorem nonLetter_chars (u : List Nat) (hu : ∀ c ∈ u, ¬(65 ≤ c ∧ c ≤ 90)) :
    ∀ c ∈ nonLetterToSpace u, isLowB c = true ∨ isPySpaceB c = true := by
  intro c hc
  unfold nonLetterToSpace at hc
  obtain ⟨c0, hc0, rfl⟩ := List.mem_map.mp hc
  by_cases h : isLetterB c0 || isPySpaceB c0
  · rw [if_pos h]
    rcases Bool.or_eq_true_iff.mp h with h2 | h2
    · left
      have hup := hu c0 hc0
      unfold isLetterB at h2
      unfold isLowB
      simp at h2 ⊢
      omega
    · right
      exact h2
  · rw [if_neg h]
    right
    decide

theorem isLow_ne_space (c : Nat) (h : isLowB c = true) : c ≠ 32 := by
  unfold isLowB at h
  simp at h
  omega

theorem isLow_not_pyspace (c : Nat) (h : isLowB c = true) : isPySpaceB c = false := by
  unfold isLowB at h
  unfold isPySpaceB
  simp at h ⊢
  omega

theorem collapseAux_good (u : List Nat) (hu : ∀ c ∈ u, isLowB c = true ∨ isPySpaceB c = true) :
    ∀ flag,
      (∀ c ∈ collapseAux flag u, isLowB c = true ∨ c = 32) ∧
      List.Chain' noTwoSpaces (collapseAux flag u) ∧
      ((collapseAux flag u).head? ≠ some 32 ∨ flag = false) := by
  induction u with
  | nil => intro flag; exact ⟨by simp [collapseAux], by simp [collapseAux], by simp [collapseAux]⟩
  | cons c rest ih =>
    have hrest : ∀ c2 ∈ rest, isLowB c2 = true ∨ isPySpaceB c2 = true :=
      fun c2 h2 => hu c2 (List.mem_cons_of_mem _ h2)
    have ihr := ih hrest
    intro flag
    by_cases hsp : isPySpaceB c = true
    · match flag with
      | true =>
        have : collapseAux true (c :: rest) = collapseAux true rest := by
          simp [collapseAux, hsp]
        rw [this]
        exact ⟨(ihr true).1, (ihr true).2.1, Or.inl (by
          rcases (ihr true).2.2 with h | h
          · exact h
          · exact absurd h (by simp))⟩
      | false =>
        have : collapseAux false (c :: rest) = 32 :: collapseAux true rest := by
          simp [collapseAux, hsp]
        rw [this]
        refine ⟨?_, ?_, Or.inr rfl⟩
        · intro d hd
          rcases List.mem_cons.mp hd with rfl | hd2
          · exact Or.inr rfl
          · exact (ihr true).1 d hd2
        · rw [List.chain'_cons']
          refine ⟨?_, (ihr true).2.1⟩
          intro b hb
          rcases (ihr true).2.2 with hh | hh
          · intro hand
            obtain ⟨_, hb32⟩ := hand
            apply hh
            cases hhead : (collapseAux true rest).head? with
            | none => rw [hhead] at hb; simp at hb
            | some b2 =>
              rw [hhead] at hb
              have hb2 : some b2 = some b := hb
              injection hb2 with hb3
              rw [hb3, hb32]
          · exact absurd hh (by simp)
    · have hlow : isLowB c = true := by
        rcases hu c (by simp) with h | h
        · exact h
        · exact absurd h hsp
      have hne : c ≠ 32 := isLow_ne_space c hlow
      have heq : ∀ fl, collapseAux fl (c :: rest) = c :: collapseAux false rest := by
        intro fl
        simp [collapseAux, hsp]
      rw [heq flag]
      refine ⟨?_, ?_, Or.inl (by simp [hne])⟩
      · intro d hd
        rcases List.mem_cons.mp hd with rfl | hd2
        · exact Or.inl hlow
        · exact (ihr false).1 d hd2
      · rw [List.chain'_cons']
        exact ⟨fun b _ => fun ⟨hc32, _⟩ => hne hc32, (ihr false).2.1⟩

theorem chain'_of_append_right {α : Type} (R : α → α → Prop) (a b : List α)
    (h : List.Chain' R (a ++ b)) : List.Chain' R b :=
  (List.chain'_append.mp h).2.1

theorem chain'_of_append_left {α : Type} (R : α → α → Prop) (a b : List α)
    (h : List.Chain' R (a ++ b)) : List.Chain' R a :=
  (List.chain'_append.mp h).1

theorem dropWhile_head_false {α : Type} (p : α → Bool) (l : List α) :
    ∀ c, (l.dropWhile p).head? = some c → p c = false := by
  induction l with
  | nil => intro c hc; simp at hc
  | cons a rest ih =>
    intro c hc
    by_cases hp : p a = true
    · rw [List.dropWhile_cons, if_pos hp] at hc
      exact ih c hc
    · rw [List.dropWhile_cons, if_neg hp] at hc
      simp at hc
      subst hc
      exact Bool.not_eq_true _ |>.mp hp

theorem dropEnds_canon (x : List Nat)
    (hchars : ∀ c ∈ x, isLowB c = true ∨ c = 32)
    (hchain : List.Chain' noTwoSpaces x) :
    Canon (dropEnds isPySpaceB x) := by
  obtain ⟨t1, ht1⟩ := List.dropWhile_suffix (l := x) isPySpaceB
  set l1 := x.dropWhile isPySpaceB with hl1
  obtain ⟨t2, ht2⟩ := List.dropWhile_suffix (l := l1.reverse) isPySpaceB
  set y := l1.reverse.dropWhile isPySpaceB with hy
  have hde : dropEnds isPySpaceB x = y.reverse := rfl
  have hl1eq : l1 = y.reverse ++ t2.reverse := by
    have : l1.reverse.reverse = (t2 ++ y).reverse := by rw [ht2]
    rw [List.reverse_reverse, List.reverse_append] at this
    exact this
  have hl1chars : ∀ c ∈ l1, isLowB c = true ∨ c = 32 := by
    intro c hc
    exact hchars c (by rw [← ht1]; exact List.mem_append_right t1 hc)
  have hl1chain : List.Chain' noTwoSpaces l1 := by
    have : List.Chain' noTwoSpaces (t1 ++ l1) := by rw [ht1]; exact hchain
    exact chain'_of_append_right _ _ _ this
  rw [hde]
  refine ⟨?_, ?_, ?_, ?_⟩
  · intro c hc
    have : c ∈ l1 := by
      rw [hl1eq]
      exact List.mem_append_left _ hc
    exact hl1chars c this
  · have hych : List.Chain' noTwoSpaces y.reverse := by
      have : List.Chain' noTwoSpaces (y.reverse ++ t2.reverse) := by
        rw [← hl1eq]; exact hl1chain
      exact chain'_of_append_left _ _ _ this
    exact hych
  · cases hyr : y.reverse with
    | nil => simp
    | cons c rest =>
      have hhead : l1.head? = some c := by
        rw [hl1eq, hyr]
        rfl
      have := dropWhile_head_false isPySpaceB x c (by rw [← hl1]; exact hhead)
      rw [hyr] at *
      intro hcon
      simp at hcon
      subst hcon
      simp [isPySpaceB] at this
  · rw [List.getLast?_reverse]
    intro hcon
    have := dropWhile_head_false isPySpaceB l1.reverse 32 (by rw [← hy]; exact hcon)
    simp [isPySpaceB] at this

theorem normalize_canon (l : List Nat) (hascii : ∀ c ∈ l, c ≤ 127) :
    Canon (normalize_strict l) := by
  have hupper : ∀ c ∈ titleStrip
      (strip_accents ((dropEnds isPySpaceB l).map charLower)),
      ¬(65 ≤ c ∧ c ≤ 90) := by
    intro c hc
    have hc2 := titleStrip_subset _ c hc
    refine (strip_accents_ascii _ ?_ c hc2).2
    intro c0 hc0
    obtain ⟨c1, hc1, rfl⟩ := List.mem_map.mp hc0
    exact charLower_ascii c1 (hascii c1 (mem_dropEnds isPySpaceB l c1 hc1))
  unfold normalize_strict
  apply dropEnds_canon
  · exact fun c hc => ((collapseAux_good _ (nonLetter_chars _ hupper) false).1) c hc
  · exact (collapseAux_good _ (nonLetter_chars _ hupper) false).2.1

theorem dropWhile_id_of_head {α : Type} (p : α → Bool) (l : List α)
    (h : ∀ c, l.head? = some c → p c = false) : l.dropWhile p = l := by
  cases l with
  | nil => rfl
  | cons a rest =>
    rw [List.dropWhile_cons, if_neg (by rw [h a rfl]; simp)]

theorem dropEnds_id_of_canon (r : List Nat) (hcanon : Canon r) :
    dropEnds isPySpaceB r = r := by
  obtain ⟨hchars, _, hhead, hlast⟩ := hcanon
  have hside : ∀ c ∈ r, c ≠ 32 → isPySpaceB c = false := by
    intro c hc hne
    rcases hchars c hc with h | h
    · exact isLow_not_pyspace c h
    · exact absurd h hne
  have h1 : r.dropWhile isPySpaceB = r := by
    apply dropWhile_id_of_head
    intro c hc
    have hmem : c ∈ r := List.mem_of_mem_head? hc
    refine hside c hmem ?_
    rintro rfl
    exact hhead hc
  have h2 : r.reverse.dropWhile isPySpaceB = r.reverse := by
    apply dropWhile_id_of_head
    intro c hc
    rw [List.head?_reverse] at hc
    have hmem : c ∈ r := by
      have : c ∈ r.getLast? := hc
      exact List.mem_of_mem_getLast? this
    refine hside c hmem ?_
    rintro rfl
    exact hlast hc
  unfold dropEnds
  rw [h1, h2, List.reverse_reverse]

theorem map_id_on {α : Type} (f : α → α) (l : List α) (h : ∀ c ∈ l, f c = c) :
    l.map f = l := by
  induction l with
  | nil => rfl
  | cons a rest ih =>
    rw [List.map_cons, h a (by simp), ih (fun c hc => h c (List.mem_cons_of_mem _ hc))]

theorem charLower_id_low (c : Nat) (h : isLowB c = true ∨ c = 32) : charLower c = c := by
  have hr : 97 ≤ c ∧ c ≤ 122 ∨ c = 32 := by
    rcases h with h | h
    · left; unfold isLowB at h; simp at h; exact h
    · right; exact h
  unfold charLower
  rw [if_neg (by omega), if_pos (by omega)]

theorem nfkd_id_low (c : Nat) (h : isLowB c = true ∨ c = 32) : nfkd c = [c] := by
  have hr : 97 ≤ c ∧ c ≤ 122 ∨ c = 32 := by
    rcases h with h | h
    · left; unfold isLowB at h; simp at h; exact h
    · right; exact h
  unfold nfkd
  rw [if_pos (by omega)]

theorem flatMap_id_on (l : List Nat) (h : ∀ c ∈ l, nfkd c = [c]) :
    l.flatMap nfkd = l := by
  induction l with
  | nil => rfl
  | cons a rest ih =>
    rw [List.flatMap_cons, h a (by simp), ih (fun c hc => h c (List.mem_cons_of_mem _ hc))]
    rfl

theorem strip_accents_id (r : List Nat) (h : ∀ c ∈ r, isLowB c = true ∨ c = 32) :
    strip_accents r = r := by
  unfold strip_accents
  rw [flatMap_id_on r (fun c hc => nfkd_id_low c (h c hc))]
  rw [List.filter_eq_self.mpr]
  intro c hc
  have hr : 97 ≤ c ∧ c ≤ 122 ∨ c = 32 := by
    rcases h c hc with h2 | h2
    · left; unfold isLowB at h2; simp at h2; exact h2
    · right; exact h2
  unfold isCombiningB
  simp
  omega

theorem nonLetter_id (r : List Nat) (h : ∀ c ∈ r, isLowB c = true ∨ c = 32) :
    nonLetterToSpace r = r := by
  apply map_id_on
  intro c hc
  have hcond : (isLetterB c || isPySpaceB c) = true := by
    rcases h c hc with h2 | h2
    · have : 97 ≤ c ∧ c ≤ 122 := by unfold isLowB at h2; simp at h2; exact h2
      apply Bool.or_eq_true_iff.mpr
      left
      unfold isLetterB
      simp
      omega
    · apply Bool.or_eq_true_iff.mpr
      right
      rw [h2]
      decide
  rw [if_pos hcond]

theorem collapseAux_id (r : List Nat)
    (hchars : ∀ c ∈ r, isLowB c = true ∨ c = 32)
    (hchain : List.Chain' noTwoSpaces r)
    (hlast : r.getLast? ≠ some 32) :
    collapseAux false r = r ∧ (r.head? ≠ some 32 → collapseAux true r = r) := by
  induction r with
  | nil => exact ⟨rfl, fun _ => rfl⟩
  | cons c rest ih =>
    have hcharsr : ∀ d ∈ rest, isLowB d = true ∨ d = 32 :=
      fun d hd => hchars d (List.mem_cons_of_mem _ hd)
    have hchainr : List.Chain' noTwoSpaces rest := (List.chain'_cons'.mp hchain).2
    rcases hchars c (by simp) with hlow | hc32
    · have hsp : isPySpaceB c = false := isLow_not_pyspace c hlow
      have hlastr : rest.getLast? ≠ some 32 := by
        cases hr : rest with
        | nil => simp
        | cons d t =>
          rw [hr] at hlast
          rw [← List.getLast?_cons_cons (a := c) (b := d)]
          exact hlast
      obtain ⟨h1, _⟩ := ih hcharsr hchainr hlastr
      have heq : ∀ fl : Bool, collapseAux fl (c :: rest) = c :: collapseAux false rest := by
        intro fl
        simp [collapseAux, hsp]
      exact ⟨by rw [heq false, h1], fun _ => by rw [heq true, h1]⟩
    · subst hc32
      have hrestne : rest ≠ [] := by
        rintro rfl
        exact hlast rfl
      obtain ⟨d, t, rfl⟩ := List.exists_cons_of_ne_nil hrestne
      have hd32 : d ≠ 32 := by
        have := (List.chain'_cons'.mp hchain).1 d (by rfl)
        intro hcon
        exact this ⟨rfl, hcon⟩
      have hlastr : (d :: t).getLast? ≠ some 32 := by
        rw [← List.getLast?_cons_cons (a := 32) (b := d)]
        exact hlast
      obtain ⟨_, h2⟩ := ih hcharsr hchainr hlastr
      have hrec : collapseAux true (d :: t) = d :: t := by
        apply h2
        intro hcon
        simp at hcon
        exact hd32 hcon
      refine ⟨?_, ?_⟩
      · have : collapseAux false (32 :: d :: t) = 32 :: collapseAux true (d :: t) := rfl
        rw [this, hrec]
      · intro hh
        exact absurd rfl hh

theorem normalize_id_of_canon (r : List Nat) (hcanon : Canon r)
    (htitle : titleConsume r = none) : normalize_strict r = r := by
  obtain ⟨hchars, hchain, hhead, hlast⟩ := hcanon
  unfold normalize_strict
  rw [dropEnds_id_of_canon r ⟨hchars, hchain, hhead, hlast⟩]
  rw [map_id_on charLower r (fun c hc => charLower_id_low c (hchars c hc))]
  rw [strip_accents_id r hchars]
  rw [show titleStrip r = r from by simp [titleStrip, htitle]]
  rw [nonLetter_id r hchars]
  rw [(collapseAux_id r hchars hchain hlast).1]
  exact dropEnds_id_of_canon r ⟨hchars, hchain, hhead, hlast⟩

/-- C3 counterexample: `normalize` is not idempotent, in two independent
ways.  `TITLE_PAT` strips only one leading title per pass, so `"dr dr x"`
normalizes to `"dr x"` and again to `"x"`.  And because lowercasing runs
before NFKD, a compatibility decomposition can surface a fresh capital: the
numero sign `"№"` (U+2116) normalizes to `"No"`, which normalizes again to
`"no"`. -/
theorem C3_counterexample :
    normalize_strict (codesOf ("dr dr x")) = codesOf ("dr x") ∧
    normalize_strict (normalize_strict (codesOf ("dr dr x"))) = codesOf ("x") ∧
    normalize_strict (normalize_strict (codesOf ("dr dr x"))) ≠
      normalize_strict (codesOf ("dr dr x")) ∧
    normalize_strict (codesOf ("№")) = codesOf ("No") ∧
    normalize_strict (normalize_strict (codesOf ("№"))) = codesOf ("no") ∧
    normalize_strict (normalize_strict (codesOf ("№"))) ≠
      normalize_strict (codesOf ("№")) := by decide

/-- C3 amended: on ASCII input — the fragment where the embedded lowercase
and NFKD tables agree with CPython character by character — `normalize` is
idempotent whenever its output does not itself start with a leading title
token.  Beyond that a second application can differ, by stripping a further
title, or (outside ASCII) through compatibility decompositions that surface
new cased letters after lowercasing, as in the counterexample. -/
theorem C3_normalize_idempotent (l : List Nat) (hascii : ∀ c ∈ l, c ≤ 127)
    (h : titleConsume (normalize_strict l) = none) :
    normalize_strict (normalize_strict l) = normalize_strict l :=
  normalize_id_of_canon (normalize_strict l) (normalize_canon l hascii) h

/-- Witness for C3 on a messy ASCII input with a title, punctuation and
irregular spacing. -/
theorem C3_normalize_idempotent_witness :
    (∀ c ∈ codesOf ("  Dr.  Juan  Perez!! "), c ≤ 127) ∧
    titleConsume (normalize_strict (codesOf ("  Dr.  Juan  Perez!! "))) = none ∧
    normalize_strict (normalize_strict (codesOf ("  Dr.  Juan  Perez!! "))) =
      normalize_strict (codesOf ("  Dr.  Juan  Perez!! ")) :=
  ⟨by decide, by decide,
   C3_normalize_idempotent (codesOf ("  Dr.  Juan  Perez!! ")) (by decide) (by decide)⟩
